import Mathlib

/-!
# Verification of the lazy-propagation segment tree
(`Section-3-Data-Structures/3.3.2 Segment Tree (Range Update).cpp`)

This file gives a shallow embedding of the `segment_tree<T>` class: the data
layout (`len`, `value`, `delta`, `pending` of size `4*len`), the private
recursive algorithms (`build`, `update_delta`, `query`, `update`) and the
public interface (`at`, `size`, `query`, `update`).  C++ `int` is modelled by
`Int` (truncating division `Int.tdiv` mirrors C++ `/`), `std::vector<T>` by
`List T` with every subscript bounds-checked: an access outside the
allocation — undefined behaviour in C++ — yields `SegError.crash`, and so
does running out of recursion fuel (the C++ code recurses without bound on
malformed ranges, overflowing the stack).  The fuel supplied by the public
wrappers (`len + 1`) is provably sufficient for every well-formed call.

The algebraic contract of the documentation (associative `join_values`,
distributive / composable delta operators) is captured by `LawfulOps`, and
the tree invariant by `INVp` / `GoodTree`: cached aggregates agree with the
fold of the (lazily pending) logical leaf values.
-/

set_option linter.unusedVariables false
set_option linter.unusedSectionVars false

namespace SegVerify

/-- Failure outcomes of an operation.  `crash` models C++ undefined behaviour
(an out-of-bounds vector subscript, or unbounded recursion); `outOfRange` is
the clean validation error that the specification document postulates — the
implementation itself never produces it. -/
inductive SegError where
  | outOfRange : SegError
  | crash : SegError
deriving DecidableEq, Repr

/-- Bounds-checked read of `l[i]` with a C++ `int` index. -/
def getE {α : Type} (l : List α) (i : Int) : Except SegError α :=
  if h : 0 ≤ i ∧ i.toNat < l.length then .ok (l.get ⟨i.toNat, h.2⟩) else .error .crash

/-- Bounds-checked write `l[i] = x`. -/
def setE {α : Type} (l : List α) (i : Int) (x : α) : Except SegError (List α) :=
  if 0 ≤ i ∧ i.toNat < l.length then .ok (l.set i.toNat x) else .error .crash

/-- Total read used by specification-side functions; out-of-bounds reads give
`default` (they never matter under the invariant). -/
def getT {α : Type} [Inhabited α] (l : List α) (i : Int) : α :=
  if h : 0 ≤ i ∧ i.toNat < l.length then l.get ⟨i.toNat, h.2⟩ else default

/-- C++ integer division (truncation toward zero), as used in `(lo + hi)/2`. -/
def cdiv (a b : Int) : Int := Int.tdiv a b

/-- The three customization points of `segment_tree<T>`: `join_values`,
`join_value_with_delta`, `join_deltas` (static member functions in the C++
template). -/
structure SegOps (T : Type) where
  join_values : T → T → T
  join_value_with_delta : T → T → Int → T
  join_deltas : T → T → T

/-- The state of a `segment_tree<T>` object: `len` and the three vectors
`value`, `delta`, `pending` (each resized to `4*len` at construction). -/
structure SegTree (T : Type) where
  len : Int
  value : List T
  delta : List T
  pending : List Bool
deriving DecidableEq, Repr

variable {T : Type}

/-- `segment_tree::update_delta(i, d, lo, hi)` — the lazy push: if node `i`
is pending, apply `d` to its aggregate and queue `d` onto both children
(composing with any delta already pending there); finally clear the flag. -/
def update_delta (ops : SegOps T) (i : Int) (d : T) (lo hi : Int) (s : SegTree T) :
    Except SegError (SegTree T) := do
  let pi ← getE s.pending i
  if pi then
    let vi ← getE s.value i
    let value ← setE s.value i (ops.join_value_with_delta vi d (hi - lo + 1))
    let s := { s with value := value }
    if lo ≠ hi then
      let l := 2*i + 1
      let r := 2*i + 2
      let pl ← getE s.pending l
      let dl ← getE s.delta l
      let delta ← setE s.delta l (if pl then ops.join_deltas dl d else d)
      let s := { s with delta := delta }
      let pr ← getE s.pending r
      let dr ← getE s.delta r
      let delta ← setE s.delta r (if pr then ops.join_deltas dr d else d)
      let s := { s with delta := delta }
      let pending ← setE s.pending l true
      let s := { s with pending := pending }
      let pending ← setE s.pending r true
      let s := { s with pending := pending }
      let pending ← setE s.pending i false
      pure { s with pending := pending }
    else
      let pending ← setE s.pending i false
      pure { s with pending := pending }
  else
    let pending ← setE s.pending i false
    pure { s with pending := pending }

/-- `segment_tree::query(i, lo, hi, tgt_lo, tgt_hi)` (private).  The `fuel`
argument makes the C++ recursion — which is unbounded on malformed target
ranges — a total function; exhausting it is a `crash`. -/
def queryA (ops : SegOps T) : Nat → Int → Int → Int → Int → Int → SegTree T →
    Except SegError (T × SegTree T)
  | 0, _, _, _, _, _, _ => .error .crash
  | fuel+1, i, lo, hi, tlo, thi, s => do
    let di ← getE s.delta i
    let s ← update_delta ops i di lo hi s
    if lo = tlo ∧ hi = thi then
      let vi ← getE s.value i
      pure (vi, s)
    else
      if tlo ≤ cdiv (lo + hi) 2 ∧ cdiv (lo + hi) 2 < thi then
        let resl ← queryA ops fuel (i*2 + 1) lo (cdiv (lo + hi) 2) tlo
          (min thi (cdiv (lo + hi) 2)) s
        let resr ← queryA ops fuel (i*2 + 2) (cdiv (lo + hi) 2 + 1) hi
          (max tlo (cdiv (lo + hi) 2 + 1)) thi resl.2
        pure (ops.join_values resl.1 resr.1, resr.2)
      else if tlo ≤ cdiv (lo + hi) 2 then
        queryA ops fuel (i*2 + 1) lo (cdiv (lo + hi) 2) tlo
          (min thi (cdiv (lo + hi) 2)) s
      else
        queryA ops fuel (i*2 + 2) (cdiv (lo + hi) 2 + 1) hi
          (max tlo (cdiv (lo + hi) 2 + 1)) thi s

/-- `segment_tree::update(i, lo, hi, tgt_lo, tgt_hi, d)` (private). -/
def updateA (ops : SegOps T) : Nat → Int → Int → Int → Int → Int → T → SegTree T →
    Except SegError (SegTree T)
  | 0, _, _, _, _, _, _, _ => .error .crash
  | fuel+1, i, lo, hi, tlo, thi, d, s => do
    let di ← getE s.delta i
    let s ← update_delta ops i di lo hi s
    if hi < tlo ∨ lo > thi then
      pure s
    else if tlo ≤ lo ∧ hi ≤ thi then
      let pending ← setE s.pending i true
      let s := { s with pending := pending }
      update_delta ops i d lo hi s
    else do
      let s ← updateA ops fuel (2*i + 1) lo (cdiv (lo + hi) 2) tlo thi d s
      let s ← updateA ops fuel (2*i + 2) (cdiv (lo + hi) 2 + 1) hi tlo thi d s
      let vl ← getE s.value (2*i + 1)
      let vr ← getE s.value (2*i + 2)
      let value ← setE s.value i (ops.join_values vl vr)
      pure { s with value := value }

/-- `segment_tree::build(i, lo, hi, v)` — bottom-up fill construction. -/
def buildV (ops : SegOps T) : Nat → Int → Int → Int → T → SegTree T →
    Except SegError (SegTree T)
  | 0, _, _, _, _, _ => .error .crash
  | fuel+1, i, lo, hi, v, s =>
    if lo = hi then do
      let value ← setE s.value i v
      pure { s with value := value }
    else do
      let s ← buildV ops fuel (i*2 + 1) lo (cdiv (lo + hi) 2) v s
      let s ← buildV ops fuel (i*2 + 2) (cdiv (lo + hi) 2 + 1) hi v s
      let vl ← getE s.value (i*2 + 1)
      let vr ← getE s.value (i*2 + 2)
      let value ← setE s.value i (ops.join_values vl vr)
      pure { s with value := value }

/-- `segment_tree::build(i, lo, hi, arr)` — bottom-up construction from a
random-access range (`*(arr + lo)` reads the input sequence). -/
def buildIt (ops : SegOps T) : Nat → Int → Int → Int → List T → SegTree T →
    Except SegError (SegTree T)
  | 0, _, _, _, _, _ => .error .crash
  | fuel+1, i, lo, hi, arr, s =>
    if lo = hi then do
      let x ← getE arr lo
      let value ← setE s.value i x
      pure { s with value := value }
    else do
      let s ← buildIt ops fuel (i*2 + 1) lo (cdiv (lo + hi) 2) arr s
      let s ← buildIt ops fuel (i*2 + 2) (cdiv (lo + hi) 2 + 1) hi arr s
      let vl ← getE s.value (i*2 + 1)
      let vr ← getE s.value (i*2 + 2)
      let value ← setE s.value i (ops.join_values vl vr)
      pure { s with value := value }

/-- `segment_tree(n, v)`: resize the three vectors to `4*len` (`delta` filled
with default-constructed `T()`, modelled by `t0`) and build. -/
def mkSegFill (ops : SegOps T) (t0 : T) (n : Int) (v : T) : Except SegError (SegTree T) :=
  buildV ops (n.toNat + 1) 0 0 (n - 1) v
    { len := n
      value := List.replicate (4*n).toNat t0
      delta := List.replicate (4*n).toNat t0
      pending := List.replicate (4*n).toNat false }

/-- `segment_tree(lo, hi)` from a random-access range, `len = hi - lo`. -/
def mkSegIt (ops : SegOps T) (t0 : T) (arr : List T) : Except SegError (SegTree T) :=
  buildIt ops (arr.length + 1) 0 0 ((arr.length : Int) - 1) arr
    { len := (arr.length : Int)
      value := List.replicate (4*arr.length) t0
      delta := List.replicate (4*arr.length) t0
      pending := List.replicate (4*arr.length) false }

/-- `size()`. -/
def sizeSeg (s : SegTree T) : Int := s.len

/-- Public `query(lo, hi)`: calls the recursion at the root with span
`[0, len-1]` and no validation whatsoever. -/
def querySeg (ops : SegOps T) (s : SegTree T) (lo hi : Int) :
    Except SegError (T × SegTree T) :=
  queryA ops (s.len.toNat + 1) 0 0 (s.len - 1) lo hi s

/-- `at(i) = query(i, i)`. -/
def atSeg (ops : SegOps T) (s : SegTree T) (i : Int) : Except SegError (T × SegTree T) :=
  querySeg ops s i i

/-- Public point `update(i, d)`. -/
def updSegP (ops : SegOps T) (s : SegTree T) (i : Int) (d : T) :
    Except SegError (SegTree T) :=
  updateA ops (s.len.toNat + 1) 0 0 (s.len - 1) i i d s

/-- Public range `update(lo, hi, d)`. -/
def updSegR (ops : SegOps T) (s : SegTree T) (lo hi : Int) (d : T) :
    Except SegError (SegTree T) :=
  updateA ops (s.len.toNat + 1) 0 0 (s.len - 1) lo hi d s

/-- The default instantiation of the C++ template: "min" aggregation with
"set" deltas (`join_values = std::min`, `join_value_with_delta(v,d,len) = d`,
`join_deltas(d1,d2) = d2`). -/
def minOps : SegOps Int :=
  { join_values := fun a b => min a b
    join_value_with_delta := fun _ d _ => d
    join_deltas := fun _ d2 => d2 }

/-- The "sum"/"increment" instantiation described in the header comment:
`join_values(a,b) = a + b`, `join_value_with_delta(v,d,len) = v + d*len`,
`join_deltas(d1,d2) = d1 + d2`. -/
def sumOps : SegOps Int :=
  { join_values := fun a b => a + b
    join_value_with_delta := fun v d len => v + d * len
    join_deltas := fun d1 d2 => d1 + d2 }

/-! ## Elementary facts about the bounds-checked accessors -/

@[simp] theorem bindE_ok {ε α β : Type} (a : α) (f : α → Except ε β) :
    (Except.ok a >>= f) = f a := rfl

@[simp] theorem bindE_err {ε α β : Type} (e : ε) (f : α → Except ε β) :
    ((Except.error e : Except ε α) >>= f) = Except.error e := rfl

theorem getT_eq {α : Type} [Inhabited α] (l : List α) (i : Int) :
    getT l i = if 0 ≤ i then (l[i.toNat]?).getD default else default := by
  unfold getT
  by_cases h : 0 ≤ i ∧ i.toNat < l.length
  · rw [dif_pos h, if_pos h.1]
    simp [List.getElem?_eq_getElem h.2, List.get_eq_getElem]
  · rw [dif_neg h]
    by_cases h0 : 0 ≤ i
    · have : ¬ i.toNat < l.length := fun hc => h ⟨h0, hc⟩
      rw [if_pos h0, List.getElem?_eq_none (by omega)]
      rfl
    · rw [if_neg h0]

theorem getE_ok {α : Type} [Inhabited α] {l : List α} {i : Int}
    (h : 0 ≤ i ∧ i.toNat < l.length) : getE l i = .ok (getT l i) := by
  unfold getE getT
  rw [dif_pos h, dif_pos h]

theorem getE_ok_of_okIdx {α : Type} [Inhabited α] {l : List α} {i : Int}
    (h0 : 0 ≤ i) (h1 : i.toNat < l.length) : getE l i = .ok (getT l i) :=
  getE_ok ⟨h0, h1⟩

theorem setE_ok {α : Type} {l : List α} {i : Int} {x : α}
    (h : 0 ≤ i ∧ i.toNat < l.length) : setE l i x = .ok (l.set i.toNat x) := by
  unfold setE
  rw [if_pos h]

theorem getT_set {α : Type} [Inhabited α] (l : List α) {i : Int} (x : α)
    (h : 0 ≤ i ∧ i.toNat < l.length) (j : Int) :
    getT (l.set i.toNat x) j = if j = i then x else getT l j := by
  rw [getT_eq, getT_eq]
  by_cases hj : 0 ≤ j
  · rw [if_pos hj, if_pos hj]
    by_cases hji : j = i
    · subst hji
      rw [if_pos rfl, List.getElem?_set_self (by simpa using h.2)]
      rfl
    · rw [if_neg hji, List.getElem?_set_ne (by omega)]
  · rw [if_neg hj, if_neg hj, if_neg (by omega)]

theorem getT_replicate {α : Type} [Inhabited α] (m : Nat) (a : α) (j : Int)
    (h0 : 0 ≤ j) (h1 : j.toNat < m) : getT (List.replicate m a) j = a := by
  rw [getT_eq, if_pos h0, List.getElem?_replicate_of_lt h1]
  rfl

theorem getT_replicate_false (m : Nat) (j : Int) :
    getT (List.replicate m false) j = false := by
  rw [getT_eq]
  by_cases h0 : 0 ≤ j
  · rw [if_pos h0]
    by_cases h1 : j.toNat < m
    · rw [List.getElem?_replicate_of_lt h1]; rfl
    · rw [List.getElem?_eq_none (by simpa using Nat.le_of_not_lt h1)]; rfl
  · rw [if_neg h0]; rfl

/-! ## The implicit-heap subtree relation (children of `i` are `2i+1`, `2i+2`) -/

/-- `j` lies in the subtree rooted at node `i` of the implicit binary tree. -/
inductive Desc : Nat → Nat → Prop where
  | refl (i : Nat) : Desc i i
  | left {i k : Nat} : Desc (2*i + 1) k → Desc i k
  | right {i k : Nat} : Desc (2*i + 2) k → Desc i k

theorem Desc.le_up {i j : Nat} (h : Desc i j) : i ≤ j := by
  induction h with
  | refl i => exact Nat.le_refl i
  | left h ih => omega
  | right h ih => omega

theorem shiftRight_le_self (n m : Nat) : n >>> m ≤ n := by
  rw [Nat.shiftRight_eq_div_pow]
  exact Nat.div_le_self _ _

theorem shiftRight_one (n : Nat) : n >>> 1 = n / 2 := rfl

theorem Desc.shift {i j : Nat} (h : Desc i j) : ∃ m : Nat, (j+1) >>> m = i+1 := by
  induction h with
  | refl i => exact ⟨0, rfl⟩
  | @left i k h ih =>
    obtain ⟨m, hm⟩ := ih
    refine ⟨m + 1, ?_⟩
    rw [Nat.shiftRight_add, hm, shiftRight_one]
    omega
  | @right i k h ih =>
    obtain ⟨m, hm⟩ := ih
    refine ⟨m + 1, ?_⟩
    rw [Nat.shiftRight_add, hm, shiftRight_one]
    omega

theorem shiftRight_pos_le {n d : Nat} (hd : 1 ≤ d) : n >>> d ≤ n / 2 := by
  have : n >>> d = (n >>> 1) >>> (d - 1) := by
    rw [← Nat.shiftRight_add]
    congr 1
    omega
  rw [this, shiftRight_one]
  exact shiftRight_le_self _ _

/-- The two child subtrees of a node are disjoint. -/
theorem Desc.sib_nat {i k : Nat} (hl : Desc (2*i + 1) k) (hr : Desc (2*i + 2) k) : False := by
  obtain ⟨m₁, h₁⟩ := hl.shift
  obtain ⟨m₂, h₂⟩ := hr.shift
  rcases Nat.le_total m₁ m₂ with hm | hm
  · have heq : (k+1) >>> m₂ = ((k+1) >>> m₁) >>> (m₂ - m₁) := by
      rw [← Nat.shiftRight_add]
      congr 1
      omega
    rcases Nat.eq_or_lt_of_le hm with rfl | hlt
    · omega
    · have := shiftRight_pos_le (n := (k+1) >>> m₁) (d := m₂ - m₁) (by omega)
      omega
  · have heq : (k+1) >>> m₁ = ((k+1) >>> m₂) >>> (m₁ - m₂) := by
      rw [← Nat.shiftRight_add]
      congr 1
      omega
    rcases Nat.eq_or_lt_of_le hm with rfl | hlt
    · omega
    · have := shiftRight_pos_le (n := (k+1) >>> m₂) (d := m₁ - m₂) (by omega)
      omega

/-- `Desc` transported to the C++ `int` indices. -/
def DescI (i j : Int) : Prop := 0 ≤ i ∧ 0 ≤ j ∧ Desc i.toNat j.toNat

theorem DescI.refl {i : Int} (h : 0 ≤ i) : DescI i i := ⟨h, h, .refl _⟩

theorem DescI.le {i j : Int} (h : DescI i j) : i ≤ j := by
  obtain ⟨h1, h2, h3⟩ := h
  have := Desc.le_up h3
  omega

theorem DescI.up_left {i j : Int} (hi : 0 ≤ i) (h : DescI (2*i + 1) j) : DescI i j := by
  refine ⟨hi, h.2.1, ?_⟩
  have h2 : ((2*i + 1).toNat) = 2 * i.toNat + 1 := by omega
  have h3 := h.2.2
  rw [h2] at h3
  exact Desc.left h3

theorem DescI.up_right {i j : Int} (hi : 0 ≤ i) (h : DescI (2*i + 2) j) : DescI i j := by
  refine ⟨hi, h.2.1, ?_⟩
  have h2 : ((2*i + 2).toNat) = 2 * i.toNat + 2 := by omega
  have h3 := h.2.2
  rw [h2] at h3
  exact Desc.right h3

theorem DescI.child_left {i : Int} (hi : 0 ≤ i) : DescI i (2*i + 1) := by
  refine ⟨hi, by omega, ?_⟩
  have h2 : ((2*i + 1).toNat) = 2 * i.toNat + 1 := by omega
  rw [h2]
  exact Desc.left (.refl _)

theorem DescI.child_right {i : Int} (hi : 0 ≤ i) : DescI i (2*i + 2) := by
  refine ⟨hi, by omega, ?_⟩
  have h2 : ((2*i + 2).toNat) = 2 * i.toNat + 2 := by omega
  rw [h2]
  exact Desc.right (.refl _)

/-- Sibling subtrees are disjoint. -/
theorem DescI.sib {i j : Int} (hi : 0 ≤ i) (hl : DescI (2*i + 1) j)
    (hr : DescI (2*i + 2) j) : False := by
  have h1 : ((2*i + 1).toNat) = 2 * i.toNat + 1 := by omega
  have h2 : ((2*i + 2).toNat) = 2 * i.toNat + 2 := by omega
  have dl := hl.2.2
  have dr := hr.2.2
  rw [h1] at dl
  rw [h2] at dr
  exact Desc.sib_nat dl dr

theorem DescI.not_child_self_left {i : Int} (h : DescI (2*i + 1) i) : False := by
  have h1 := h.le
  have h2 := h.1
  omega

theorem DescI.not_child_self_right {i : Int} (h : DescI (2*i + 2) i) : False := by
  have h1 := h.le
  have h2 := h.1
  omega

/-! ## State predicates -/

/-- Node index `i` addresses all three vectors within bounds. -/
def okIdx (s : SegTree T) (i : Int) : Prop :=
  0 ≤ i ∧ i.toNat < s.value.length ∧ i.toNat < s.delta.length ∧ i.toNat < s.pending.length

/-- Two states have identical `len` and vector sizes. -/
def SameShape (s s' : SegTree T) : Prop :=
  s.len = s'.len ∧ s.value.length = s'.value.length ∧
    s.delta.length = s'.delta.length ∧ s.pending.length = s'.pending.length

theorem SameShape.self (s : SegTree T) : SameShape s s := ⟨rfl, rfl, rfl, rfl⟩

theorem SameShape.comp {s₁ s₂ s₃ : SegTree T} (h : SameShape s₁ s₂)
    (h' : SameShape s₂ s₃) : SameShape s₁ s₃ :=
  ⟨h.1.trans h'.1, h.2.1.trans h'.2.1, h.2.2.1.trans h'.2.2.1, h.2.2.2.trans h'.2.2.2⟩

theorem okIdx_of_shape {s s' : SegTree T} (h : SameShape s s') {i : Int}
    (hi : okIdx s i) : okIdx s' i := by
  obtain ⟨_, h1, h2, h3⟩ := h
  exact ⟨hi.1, h1 ▸ hi.2.1, h2 ▸ hi.2.2.1, h3 ▸ hi.2.2.2⟩

/-! ## Midpoint arithmetic (`(lo + hi)/2` in C++ truncates toward zero) -/

theorem cdiv_two_eq {a : Int} (h : 0 ≤ a) : cdiv a 2 = a / 2 :=
  Int.tdiv_eq_ediv h (by omega)

theorem mid_le {lo hi : Int} (h0 : 0 ≤ lo) (h : lo ≤ hi) :
    lo ≤ cdiv (lo + hi) 2 ∧ cdiv (lo + hi) 2 ≤ hi ∧
      2 * cdiv (lo + hi) 2 ≤ lo + hi ∧ lo + hi ≤ 2 * cdiv (lo + hi) 2 + 1 := by
  rw [cdiv_two_eq (by omega)]
  omega

theorem mid_lt {lo hi : Int} (h0 : 0 ≤ lo) (h : lo < hi) :
    lo ≤ cdiv (lo + hi) 2 ∧ cdiv (lo + hi) 2 < hi := by
  rw [cdiv_two_eq (by omega)]
  omega

/-! ## The abstraction: logical leaf values of a (lazy) subtree -/

section SpecSide

variable [Inhabited T]

/-- All three per-node fields of `j` read equal in `s` and `s'`. -/
def ReadsEq (s s' : SegTree T) (j : Int) : Prop :=
  getT s.value j = getT s'.value j ∧ getT s.delta j = getT s'.delta j ∧
    getT s.pending j = getT s'.pending j

theorem ReadsEq.same (s : SegTree T) (j : Int) : ReadsEq s s j := ⟨rfl, rfl, rfl⟩

theorem ReadsEq.symm {s s' : SegTree T} {j : Int} (h : ReadsEq s s' j) :
    ReadsEq s' s j := ⟨h.1.symm, h.2.1.symm, h.2.2.symm⟩

theorem ReadsEq.trans {s₁ s₂ s₃ : SegTree T} {j : Int} (h : ReadsEq s₁ s₂ j)
    (h' : ReadsEq s₂ s₃ j) : ReadsEq s₁ s₃ j :=
  ⟨h.1.trans h'.1, h.2.1.trans h'.2.1, h.2.2.trans h'.2.2⟩

/-- Apply an optional pending delta to a single value (span 1). -/
def applyD (ops : SegOps T) (v : T) : Option T → T
  | none => v
  | some d => ops.join_value_with_delta v d 1

/-- Compose an optional older delta with an optional newer one
(the older is applied first, per the `join_deltas` convention). -/
def mergeD (ops : SegOps T) : Option T → Option T → Option T
  | none, acc => acc
  | some d, none => some d
  | some d, some acc => some (ops.join_deltas d acc)

@[simp] theorem mergeD_none (ops : SegOps T) (acc : Option T) :
    mergeD ops none acc = acc := by
  cases acc <;> rfl

/-- The pending delta of node `i`, if its flag is set. -/
def effD (s : SegTree T) (i : Int) : Option T :=
  if getT s.pending i then some (getT s.delta i) else none

/-- The logical value at leaf position `j` of the subtree rooted at `i`
with span `[lo, hi]`, given a composed, not-yet-applied delta `dacc`
inherited from ancestors.  This "pushes everything down on paper": the
node's own pending delta is composed onto `dacc` and forwarded; at a leaf
the accumulated delta is applied to the stored value once, with span 1. -/
def leafF (ops : SegOps T) (s : SegTree T) (i lo hi : Int) (dacc : Option T)
    (j : Int) : T :=
  if h : 0 ≤ lo ∧ lo < hi then
    if j ≤ cdiv (lo + hi) 2 then
      leafF ops s (2*i + 1) lo (cdiv (lo + hi) 2) (mergeD ops (effD s i) dacc) j
    else
      leafF ops s (2*i + 2) (cdiv (lo + hi) 2 + 1) hi (mergeD ops (effD s i) dacc) j
  else applyD ops (getT s.value i) (mergeD ops (effD s i) dacc)
termination_by (hi - lo).toNat
decreasing_by
  · have := mid_lt h.1 h.2
    omega
  · have := mid_lt h.1 h.2
    omega

/-- Like `leafF` with no inherited delta, but ignoring the pending flag of
the root node `i` itself: the leaf values that `value[i]` currently
aggregates (its cached, possibly stale, view of its subtree). -/
def staleF (ops : SegOps T) (s : SegTree T) (i lo hi : Int) (j : Int) : T :=
  if 0 ≤ lo ∧ lo < hi then
    if j ≤ cdiv (lo + hi) 2 then leafF ops s (2*i + 1) lo (cdiv (lo + hi) 2) none j
    else leafF ops s (2*i + 2) (cdiv (lo + hi) 2 + 1) hi none j
  else getT s.value i

/-- `join_values` folded over `f lo, f (lo+1), ..., f hi` (left-nested). -/
def foldF (ops : SegOps T) (f : Int → T) (lo hi : Int) : T :=
  if lo < hi then ops.join_values (foldF ops f lo (hi - 1)) (f hi) else f lo
termination_by (hi - lo).toNat
decreasing_by omega

/-- The structural invariant of the lazy tree below node `i` with span
`[lo, hi]`: every node index is within the `4*len` allocation, and every
internal node's cached aggregate equals the fold of the leaf values of its
two children's subtrees (each child seen with its own pending delta, but
without `i`'s). -/
def INVp (ops : SegOps T) (s : SegTree T) (i lo hi : Int) : Prop :=
  okIdx s i ∧
  if h : 0 ≤ lo ∧ lo < hi then
    getT s.value i = foldF ops (staleF ops s i lo hi) lo hi ∧
    INVp ops s (2*i + 1) lo (cdiv (lo + hi) 2) ∧
    INVp ops s (2*i + 2) (cdiv (lo + hi) 2 + 1) hi
  else True
termination_by (hi - lo).toNat
decreasing_by
  · have := mid_lt h.1 h.2
    omega
  · have := mid_lt h.1 h.2
    omega

end SpecSide

/-! ## The algebraic contract on the customization points -/

/-- The contract stated in the C++ header comment, in the strength actually
needed for correctness: `join_values` associative; `join_value_with_delta`
distributes over `join_values` of two sub-aggregates with positive spans;
applying two deltas in sequence at one span equals applying their
`join_deltas` composition. -/
structure LawfulOps (ops : SegOps T) : Prop where
  assoc : ∀ a b c, ops.join_values (ops.join_values a b) c
    = ops.join_values a (ops.join_values b c)
  distrib : ∀ a b d l1 l2, 0 < l1 → 0 < l2 →
    ops.join_value_with_delta (ops.join_values a b) d (l1 + l2)
      = ops.join_values (ops.join_value_with_delta a d l1)
          (ops.join_value_with_delta b d l2)
  compose : ∀ v d1 d2 l,
    ops.join_value_with_delta (ops.join_value_with_delta v d1 l) d2 l
      = ops.join_value_with_delta v (ops.join_deltas d1 d2) l

theorem lawful_minOps : LawfulOps minOps := by
  constructor
  · intro a b c
    exact min_assoc a b c
  · intro a b d l1 l2 h1 h2
    simp [minOps]
  · intro v d1 d2 l
    rfl

theorem lawful_sumOps : LawfulOps sumOps := by
  constructor
  · intro a b c
    exact add_assoc a b c
  · intro a b d l1 l2 h1 h2
    simp only [sumOps]
    ring
  · intro v d1 d2 l
    simp only [sumOps]
    ring

/-! ## Equation lemmas for the recursive abstraction functions -/

section SpecSide

variable [Inhabited T] {ops : SegOps T}

@[simp] theorem mergeD_none_right (x : Option T) : mergeD ops x none = x := by
  cases x <;> rfl

theorem effD_congr {s s' : SegTree T} {i : Int} (h : ReadsEq s s' i) :
    effD s i = effD s' i := by
  unfold effD
  rw [h.2.1, h.2.2]

theorem leafF_base {s : SegTree T} {i lo hi : Int} {dacc : Option T} {j : Int}
    (h : ¬ (0 ≤ lo ∧ lo < hi)) :
    leafF ops s i lo hi dacc j = applyD ops (getT s.value i) (mergeD ops (effD s i) dacc) := by
  rw [leafF, dif_neg h]

theorem leafF_left {s : SegTree T} {i lo hi : Int} {dacc : Option T} {j : Int}
    (h0 : 0 ≤ lo) (h : lo < hi) (hj : j ≤ cdiv (lo + hi) 2) :
    leafF ops s i lo hi dacc j
      = leafF ops s (2*i + 1) lo (cdiv (lo + hi) 2) (mergeD ops (effD s i) dacc) j := by
  rw [leafF, dif_pos ⟨h0, h⟩, if_pos hj]

theorem leafF_right {s : SegTree T} {i lo hi : Int} {dacc : Option T} {j : Int}
    (h0 : 0 ≤ lo) (h : lo < hi) (hj : ¬ j ≤ cdiv (lo + hi) 2) :
    leafF ops s i lo hi dacc j
      = leafF ops s (2*i + 2) (cdiv (lo + hi) 2 + 1) hi (mergeD ops (effD s i) dacc) j := by
  rw [leafF, dif_pos ⟨h0, h⟩, if_neg hj]

theorem staleF_base {s : SegTree T} {i lo hi : Int} {j : Int}
    (h : ¬ (0 ≤ lo ∧ lo < hi)) : staleF ops s i lo hi j = getT s.value i := by
  unfold staleF
  rw [if_neg h]

theorem staleF_left {s : SegTree T} {i lo hi : Int} {j : Int}
    (h0 : 0 ≤ lo) (h : lo < hi) (hj : j ≤ cdiv (lo + hi) 2) :
    staleF ops s i lo hi j = leafF ops s (2*i + 1) lo (cdiv (lo + hi) 2) none j := by
  unfold staleF
  rw [if_pos ⟨h0, h⟩, if_pos hj]

theorem staleF_right {s : SegTree T} {i lo hi : Int} {j : Int}
    (h0 : 0 ≤ lo) (h : lo < hi) (hj : ¬ j ≤ cdiv (lo + hi) 2) :
    staleF ops s i lo hi j = leafF ops s (2*i + 2) (cdiv (lo + hi) 2 + 1) hi none j := by
  unfold staleF
  rw [if_pos ⟨h0, h⟩, if_neg hj]

theorem INVp_okIdx {s : SegTree T} {i lo hi : Int} (h : INVp ops s i lo hi) :
    okIdx s i := by
  rw [INVp] at h
  exact h.1

theorem INVp_base {s : SegTree T} {i lo hi : Int} (h : ¬ (0 ≤ lo ∧ lo < hi)) :
    INVp ops s i lo hi ↔ okIdx s i := by
  rw [INVp, dif_neg h]
  simp

theorem INVp_int {s : SegTree T} {i lo hi : Int} (h0 : 0 ≤ lo) (h : lo < hi) :
    INVp ops s i lo hi ↔
      okIdx s i ∧ (getT s.value i = foldF ops (staleF ops s i lo hi) lo hi ∧
        INVp ops s (2*i + 1) lo (cdiv (lo + hi) 2) ∧
        INVp ops s (2*i + 2) (cdiv (lo + hi) 2 + 1) hi) := by
  rw [INVp, dif_pos ⟨h0, h⟩]

/-! ## Fold lemmas -/

theorem foldF_base {f : Int → T} {lo hi : Int} (h : ¬ lo < hi) :
    foldF ops f lo hi = f lo := by
  rw [foldF, if_neg h]

theorem foldF_single (f : Int → T) (lo : Int) : foldF ops f lo lo = f lo :=
  foldF_base (by omega)

theorem foldF_step {f : Int → T} {lo hi : Int} (h : lo < hi) :
    foldF ops f lo hi = ops.join_values (foldF ops f lo (hi - 1)) (f hi) := by
  rw [foldF]
  exact if_pos h

theorem foldF_congr {f g : Int → T} {lo hi : Int} (hlh : lo ≤ hi)
    (h : ∀ j, lo ≤ j → j ≤ hi → f j = g j) :
    foldF ops f lo hi = foldF ops g lo hi := by
  have main : ∀ (k : Nat) (hi : Int), lo ≤ hi → (hi - lo).toNat < k →
      (∀ j, lo ≤ j → j ≤ hi → f j = g j) → foldF ops f lo hi = foldF ops g lo hi := by
    intro k
    induction k with
    | zero =>
      intro hi h1 h2 h3
      omega
    | succ k ih =>
      intro hi h1 hk h3
      rcases lt_or_le lo hi with h2 | h2
      · rw [foldF_step h2, foldF_step h2,
          ih (hi - 1) (by omega) (by omega) (fun j a b => h3 j a (by omega)),
          h3 hi (by omega) le_rfl]
      · rw [foldF_base (by omega), foldF_base (by omega), h3 lo le_rfl (by omega)]
  exact main ((hi - lo).toNat + 1) hi hlh (by omega) h

theorem foldF_split (laws : LawfulOps ops) {f : Int → T} {lo mid hi : Int}
    (h0 : lo ≤ mid) (h1 : mid < hi) :
    foldF ops f lo hi
      = ops.join_values (foldF ops f lo mid) (foldF ops f (mid + 1) hi) := by
  have main : ∀ (k : Nat) (hi : Int), mid < hi → (hi - mid).toNat < k →
      foldF ops f lo hi
        = ops.join_values (foldF ops f lo mid) (foldF ops f (mid + 1) hi) := by
    intro k
    induction k with
    | zero =>
      intro hi h2 h3
      omega
    | succ k ih =>
      intro hi h2 hk
      rcases lt_or_le (mid + 1) hi with h3 | h3
      · rw [foldF_step (show lo < hi by omega), ih (hi - 1) (by omega) (by omega),
          laws.assoc, ← foldF_step (show mid + 1 < hi by omega)]
      · have he : hi = mid + 1 := by omega
        subst he
        rw [foldF_step (show lo < mid + 1 by omega), foldF_single,
          show mid + 1 - 1 = mid by omega]
  exact main ((hi - mid).toNat + 1) hi h1 (by omega)

theorem foldF_distrib (laws : LawfulOps ops) {f : Int → T} {d : T} {lo hi : Int}
    (h : lo ≤ hi) :
    foldF ops (fun j => ops.join_value_with_delta (f j) d 1) lo hi
      = ops.join_value_with_delta (foldF ops f lo hi) d (hi - lo + 1) := by
  have main : ∀ (k : Nat) (hi : Int), lo ≤ hi → (hi - lo).toNat < k →
      foldF ops (fun j => ops.join_value_with_delta (f j) d 1) lo hi
        = ops.join_value_with_delta (foldF ops f lo hi) d (hi - lo + 1) := by
    intro k
    induction k with
    | zero =>
      intro hi h1 h2
      omega
    | succ k ih =>
      intro hi h1 hk
      rcases lt_or_le lo hi with h2 | h2
      · rw [foldF_step h2, foldF_step h2, ih (hi - 1) (by omega) (by omega)]
        have hd := laws.distrib (foldF ops f lo (hi - 1)) (f hi) d (hi - 1 - lo + 1) 1
          (by omega) (by omega)
        rw [show hi - 1 - lo + 1 + 1 = hi - lo + 1 by omega] at hd
        exact hd.symm
      · rw [foldF_base (show ¬ lo < hi by omega), foldF_base (show ¬ lo < hi by omega),
          show hi - lo + 1 = 1 by omega]
  exact main ((hi - lo).toNat + 1) hi h (by omega)

/-! ## Accumulated deltas factor through `applyD` -/

theorem applyD_mergeD (laws : LawfulOps ops) (v : T) (x y : Option T) :
    applyD ops (applyD ops v x) y = applyD ops v (mergeD ops x y) := by
  cases x with
  | none => cases y <;> rfl
  | some d =>
    cases y with
    | none => rfl
    | some a =>
      show ops.join_value_with_delta (ops.join_value_with_delta v d 1) a 1
        = ops.join_value_with_delta v (ops.join_deltas d a) 1
      exact laws.compose v d a 1

theorem leafF_acc (laws : LawfulOps ops) {s : SegTree T} :
    ∀ (i lo hi : Int) (dacc : Option T) (j : Int),
      leafF ops s i lo hi dacc j = applyD ops (leafF ops s i lo hi none j) dacc := by
  have main : ∀ (k : Nat) (i lo hi : Int), (hi - lo).toNat < k →
      ∀ (dacc : Option T) (j : Int),
        leafF ops s i lo hi dacc j = applyD ops (leafF ops s i lo hi none j) dacc := by
    intro k
    induction k with
    | zero =>
      intro i lo hi hk
      omega
    | succ k ih =>
      intro i lo hi hk dacc j
      by_cases h : 0 ≤ lo ∧ lo < hi
      · have hm := mid_lt h.1 h.2
        by_cases hj : j ≤ cdiv (lo + hi) 2
        · rw [leafF_left h.1 h.2 hj, leafF_left h.1 h.2 hj,
            ih _ _ _ (by omega) (mergeD ops (effD s i) dacc) j,
            ih _ _ _ (by omega) (mergeD ops (effD s i) none) j,
            mergeD_none_right, applyD_mergeD laws]
        · rw [leafF_right h.1 h.2 hj, leafF_right h.1 h.2 hj,
            ih _ _ _ (by omega) (mergeD ops (effD s i) dacc) j,
            ih _ _ _ (by omega) (mergeD ops (effD s i) none) j,
            mergeD_none_right, applyD_mergeD laws]
      · rw [leafF_base h, leafF_base h, mergeD_none_right, applyD_mergeD laws]
  intro i lo hi dacc j
  exact main ((hi - lo).toNat + 1) i lo hi (by omega) dacc j

/-- `leafF` in terms of the stale view plus the node's own effective delta. -/
theorem leafF_stale (laws : LawfulOps ops) {s : SegTree T} (i lo hi : Int)
    (dacc : Option T) (j : Int) :
    leafF ops s i lo hi dacc j
      = applyD ops (staleF ops s i lo hi j) (mergeD ops (effD s i) dacc) := by
  by_cases h : 0 ≤ lo ∧ lo < hi
  · by_cases hj : j ≤ cdiv (lo + hi) 2
    · rw [leafF_left h.1 h.2 hj, staleF_left h.1 h.2 hj, leafF_acc laws]
    · rw [leafF_right h.1 h.2 hj, staleF_right h.1 h.2 hj, leafF_acc laws]
  · rw [leafF_base h, staleF_base h]

/-- With no pending flag on `i` and no inherited delta, `leafF` is the
stale view. -/
theorem leafF_of_not_pending (laws : LawfulOps ops) {s : SegTree T} {i : Int}
    (hp : getT s.pending i = false) (lo hi : Int) (j : Int) :
    leafF ops s i lo hi none j = staleF ops s i lo hi j := by
  rw [leafF_stale laws]
  unfold effD
  rw [hp]
  rfl

/-- The aggregate equation of `INVp`, valid for leaves as well. -/
theorem INVp_value (laws : LawfulOps ops) {s : SegTree T} {i lo hi : Int}
    (h : INVp ops s i lo hi) (h0 : 0 ≤ lo) (h1 : lo ≤ hi) :
    getT s.value i = foldF ops (staleF ops s i lo hi) lo hi := by
  rcases lt_or_le lo hi with h2 | h2
  · exact ((INVp_int h0 h2).1 h).2.1
  · have he : lo = hi := by omega
    subst he
    rw [foldF_single, staleF_base (by omega)]

end SpecSide

/-! ## Congruence: the abstraction reads only the subtree of its root -/

section SpecSide

variable [Inhabited T] {ops : SegOps T}

theorem getT_neg {α : Type} [Inhabited α] (l : List α) {i : Int} (h : ¬ 0 ≤ i) :
    getT l i = default := by
  unfold getT
  rw [dif_neg (fun hc => h hc.1)]

theorem readsEq_of_neg {s s' : SegTree T} {i : Int} (h : ¬ 0 ≤ i) :
    ReadsEq s s' i := by
  refine ⟨?_, ?_, ?_⟩ <;> rw [getT_neg _ h, getT_neg _ h]

theorem leafF_congr {s s' : SegTree T} :
    ∀ (i lo hi : Int), 0 ≤ i → (∀ m, DescI i m → ReadsEq s s' m) →
      ∀ (dacc : Option T) (j : Int),
        leafF ops s i lo hi dacc j = leafF ops s' i lo hi dacc j := by
  have main : ∀ (k : Nat) (i lo hi : Int), 0 ≤ i → (hi - lo).toNat < k →
      (∀ m, DescI i m → ReadsEq s s' m) → ∀ (dacc : Option T) (j : Int),
        leafF ops s i lo hi dacc j = leafF ops s' i lo hi dacc j := by
    intro k
    induction k with
    | zero =>
      intro i lo hi hi0 hk
      omega
    | succ k ih =>
      intro i lo hi hi0 hk hag dacc j
      have hre : ReadsEq s s' i := hag i (DescI.refl hi0)
      have hagl : ∀ m, DescI (2*i + 1) m → ReadsEq s s' m :=
        fun m hm => hag m (DescI.up_left hi0 hm)
      have hagr : ∀ m, DescI (2*i + 2) m → ReadsEq s s' m :=
        fun m hm => hag m (DescI.up_right hi0 hm)
      by_cases h : 0 ≤ lo ∧ lo < hi
      · have hm := mid_lt h.1 h.2
        by_cases hj : j ≤ cdiv (lo + hi) 2
        · rw [leafF_left h.1 h.2 hj, leafF_left h.1 h.2 hj,
            effD_congr hre, ih (2*i + 1) lo (cdiv (lo + hi) 2) (by omega) (by omega) hagl]
        · rw [leafF_right h.1 h.2 hj, leafF_right h.1 h.2 hj,
            effD_congr hre, ih (2*i + 2) (cdiv (lo + hi) 2 + 1) hi (by omega) (by omega) hagr]
      · rw [leafF_base h, leafF_base h, effD_congr hre, hre.1]
  intro i lo hi hi0 hag dacc j
  exact main ((hi - lo).toNat + 1) i lo hi hi0 (by omega) hag dacc j

theorem staleF_congr {s s' : SegTree T} {i lo hi : Int} (hi0 : 0 ≤ i)
    (hv : getT s.value i = getT s'.value i)
    (hl : ∀ m, DescI (2*i + 1) m → ReadsEq s s' m)
    (hr : ∀ m, DescI (2*i + 2) m → ReadsEq s s' m) (j : Int) :
    staleF ops s i lo hi j = staleF ops s' i lo hi j := by
  by_cases h : 0 ≤ lo ∧ lo < hi
  · by_cases hj : j ≤ cdiv (lo + hi) 2
    · rw [staleF_left h.1 h.2 hj, staleF_left h.1 h.2 hj,
        leafF_congr _ _ _ (by omega) hl]
    · rw [staleF_right h.1 h.2 hj, staleF_right h.1 h.2 hj,
        leafF_congr _ _ _ (by omega) hr]
  · rw [staleF_base h, staleF_base h, hv]

theorem INVp_mono {s s' : SegTree T} (hsh : SameShape s s') :
    ∀ (i lo hi : Int),
      (getT s.value i = getT s'.value i) →
      (∀ m, DescI (2*i + 1) m → ReadsEq s s' m) →
      (∀ m, DescI (2*i + 2) m → ReadsEq s s' m) →
      INVp ops s i lo hi → INVp ops s' i lo hi := by
  have main : ∀ (k : Nat) (i lo hi : Int), (hi - lo).toNat < k →
      (getT s.value i = getT s'.value i) →
      (∀ m, DescI (2*i + 1) m → ReadsEq s s' m) →
      (∀ m, DescI (2*i + 2) m → ReadsEq s s' m) →
      INVp ops s i lo hi → INVp ops s' i lo hi := by
    intro k
    induction k with
    | zero =>
      intro i lo hi hk
      omega
    | succ k ih =>
      intro i lo hi hk hv hl hr hI
      have hi0 : 0 ≤ i := (INVp_okIdx hI).1
      by_cases h : 0 ≤ lo ∧ lo < hi
      · rw [INVp_int h.1 h.2] at hI
        obtain ⟨hok, hval, hIl, hIr⟩ := hI
        have hm := mid_lt h.1 h.2
        rw [INVp_int h.1 h.2]
        refine ⟨okIdx_of_shape hsh hok, ?_, ?_, ?_⟩
        · rw [← hv, hval]
          exact foldF_congr (by omega)
            (fun j a b => (staleF_congr hi0 hv hl hr j).symm) |>.symm
        · exact ih _ _ _ (by omega) (hl _ (DescI.refl (by omega))).1
            (fun m hm' => hl m (DescI.up_left (by omega) hm'))
            (fun m hm' => hl m (DescI.up_right (by omega) hm')) hIl
        · exact ih _ _ _ (by omega) (hr _ (DescI.refl (by omega))).1
            (fun m hm' => hr m (DescI.up_left (by omega) hm'))
            (fun m hm' => hr m (DescI.up_right (by omega) hm')) hIr
      · rw [INVp_base h] at hI ⊢
        exact okIdx_of_shape hsh hI
  intro i lo hi
  exact main ((hi - lo).toNat + 1) i lo hi (by omega)

/-- `INVp` transfer when the whole subtree of `i` reads equal. -/
theorem INVp_mono_sub {s s' : SegTree T} (hsh : SameShape s s') {i lo hi : Int}
    (hag : ∀ m, DescI i m → ReadsEq s s' m)
    (hI : INVp ops s i lo hi) : INVp ops s' i lo hi := by
  have hi0 : 0 ≤ i := (INVp_okIdx hI).1
  exact INVp_mono hsh i lo hi (hag i (DescI.refl hi0)).1
    (fun m hm => hag m (DescI.up_left hi0 hm))
    (fun m hm => hag m (DescI.up_right hi0 hm)) hI

/-- Reads within the subtree of one child are untouched by writes confined
to the sibling's subtree. -/
theorem agree_of_frame_left {s s' : SegTree T} {i : Int} (hi0 : 0 ≤ i)
    (hframe : ∀ j, ¬ DescI (2*i + 2) j → ReadsEq s s' j) :
    ∀ m, DescI (2*i + 1) m → ReadsEq s s' m := by
  intro m hm
  exact hframe m (fun hc => DescI.sib hi0 hm hc)

theorem agree_of_frame_right {s s' : SegTree T} {i : Int} (hi0 : 0 ≤ i)
    (hframe : ∀ j, ¬ DescI (2*i + 1) j → ReadsEq s s' j) :
    ∀ m, DescI (2*i + 2) m → ReadsEq s s' m := by
  intro m hm
  exact hframe m (fun hc => DescI.sib hi0 hc hm)

end SpecSide

/-! ## Concrete runs of `update_delta` -/

section SpecSide

variable [Inhabited T] {ops : SegOps T}

theorem ud_run_clear {s : SegTree T} {i lo hi : Int} {d : T}
    (hok : okIdx s i) (hp : getT s.pending i = false) :
    update_delta ops i d lo hi s
      = .ok { s with pending := s.pending.set i.toNat false } := by
  unfold update_delta
  rw [getE_ok ⟨hok.1, hok.2.2.2⟩, bindE_ok, hp]
  simp only [Bool.false_eq_true, if_false]
  rw [setE_ok ⟨hok.1, hok.2.2.2⟩, bindE_ok]
  rfl

theorem ud_run_leaf {s : SegTree T} {i lo hi : Int} {d : T}
    (hok : okIdx s i) (hp : getT s.pending i = true) (heq : lo = hi) :
    update_delta ops i d lo hi s = .ok
      { s with
        value := s.value.set i.toNat
          (ops.join_value_with_delta (getT s.value i) d (hi - lo + 1))
        pending := s.pending.set i.toNat false } := by
  unfold update_delta
  rw [getE_ok ⟨hok.1, hok.2.2.2⟩, bindE_ok, hp]
  simp only [if_true]
  rw [getE_ok ⟨hok.1, hok.2.1⟩, bindE_ok, setE_ok ⟨hok.1, hok.2.1⟩, bindE_ok]
  rw [if_neg (by simpa using heq)]
  rw [setE_ok ⟨hok.1, by simpa using hok.2.2.2⟩, bindE_ok]
  rfl

theorem ud_run_int {s : SegTree T} {i lo hi : Int} {d : T}
    (hok : okIdx s i) (hokl : okIdx s (2*i + 1)) (hokr : okIdx s (2*i + 2))
    (hp : getT s.pending i = true) (hne : lo ≠ hi) :
    update_delta ops i d lo hi s = .ok
      { s with
        value := s.value.set i.toNat
          (ops.join_value_with_delta (getT s.value i) d (hi - lo + 1))
        delta := (s.delta.set (2*i + 1).toNat
            (if getT s.pending (2*i + 1) then ops.join_deltas (getT s.delta (2*i + 1)) d
              else d)).set (2*i + 2).toNat
            (if getT s.pending (2*i + 2) then ops.join_deltas (getT s.delta (2*i + 2)) d
              else d)
        pending := ((s.pending.set (2*i + 1).toNat true).set (2*i + 2).toNat
            true).set i.toNat false } := by
  unfold update_delta
  rw [getE_ok ⟨hok.1, hok.2.2.2⟩, bindE_ok, hp]
  simp only [if_true]
  rw [getE_ok ⟨hok.1, hok.2.1⟩, bindE_ok, setE_ok ⟨hok.1, hok.2.1⟩, bindE_ok]
  rw [if_pos hne]
  rw [getE_ok ⟨hokl.1, hokl.2.2.2⟩, bindE_ok]
  rw [getE_ok ⟨hokl.1, hokl.2.2.1⟩, bindE_ok]
  rw [setE_ok ⟨hokl.1, hokl.2.2.1⟩, bindE_ok]
  rw [getE_ok ⟨hokr.1, hokr.2.2.2⟩, bindE_ok]
  rw [getE_ok ⟨hokr.1, by simpa using hokr.2.2.1⟩, bindE_ok]
  rw [setE_ok ⟨hokr.1, by simpa using hokr.2.2.1⟩, bindE_ok]
  rw [setE_ok ⟨hokl.1, hokl.2.2.2⟩, bindE_ok]
  rw [setE_ok ⟨hokr.1, by simpa using hokr.2.2.2⟩, bindE_ok]
  rw [setE_ok ⟨hok.1, by simpa using hok.2.2.2⟩, bindE_ok]
  rw [getT_set s.delta _ ⟨hokl.1, hokl.2.2.1⟩ (2*i + 2),
    if_neg (show ¬ ((2:Int)*i + 2 = 2*i + 1) by omega)]
  rfl

end SpecSide

/-! ## Semantics of `update_delta` -/

section SpecSide

variable [Inhabited T] {ops : SegOps T}

@[simp] theorem applyD_some (v d : T) :
    applyD ops v (some d) = ops.join_value_with_delta v d 1 := rfl

@[simp] theorem applyD_none (v : T) : applyD ops v none = v := rfl

/-- Resolving a non-pending node only rewrites `pending[i]` with its current
value: every field of every node reads unchanged. -/
theorem ud_clear {s : SegTree T} {i lo hi : Int} {d : T}
    (hok : okIdx s i) (hp : getT s.pending i = false) :
    ∃ s', update_delta ops i d lo hi s = .ok s' ∧ SameShape s s' ∧
      (∀ j, ReadsEq s s' j) := by
  refine ⟨_, ud_run_clear hok hp, ⟨rfl, rfl, rfl, (List.length_set _ _ _).symm⟩, ?_⟩
  intro j
  refine ⟨rfl, rfl, ?_⟩
  show getT s.pending j = getT (s.pending.set i.toNat false) j
  rw [getT_set s.pending _ ⟨hok.1, hok.2.2.2⟩ j]
  by_cases hj : j = i
  · rw [if_pos hj, hj, hp]
  · rw [if_neg hj]

end SpecSide

section SpecSide

variable [Inhabited T] {ops : SegOps T}

/-- Resolving a pending node `i`: its aggregate absorbs `d` over the whole
span, the stale view of the subtree advances by one application of `d` per
leaf, the children inherit `d` (composed after their own pending deltas),
and the subtree invariant survives. -/
theorem ud_push (laws : LawfulOps ops) {s : SegTree T} {i lo hi : Int} {d : T}
    (hInv : INVp ops s i lo hi) (h0 : 0 ≤ lo) (h1 : lo ≤ hi)
    (hp : getT s.pending i = true) :
    ∃ s', update_delta ops i d lo hi s = .ok s' ∧ SameShape s s' ∧
      (∀ j, ¬ DescI i j → ReadsEq s s' j) ∧
      INVp ops s' i lo hi ∧
      getT s'.pending i = false ∧
      getT s'.value i = ops.join_value_with_delta (getT s.value i) d (hi - lo + 1) ∧
      (∀ j, staleF ops s' i lo hi j
        = ops.join_value_with_delta (staleF ops s i lo hi j) d 1) := by
  have hok : okIdx s i := INVp_okIdx hInv
  have hi0 : 0 ≤ i := hok.1
  rcases eq_or_lt_of_le h1 with heq | hlt
  · -- leaf node: lo = hi
    refine ⟨_, ud_run_leaf hok hp heq, ⟨rfl, (List.length_set _ _ _).symm, rfl,
      (List.length_set _ _ _).symm⟩, ?_, ?_, ?_, ?_, ?_⟩
    · intro j hnd
      have hji : j ≠ i := fun hc => hnd (by rw [hc]; exact DescI.refl hi0)
      refine ⟨?_, rfl, ?_⟩
      · show getT s.value j = getT (s.value.set i.toNat _) j
        rw [getT_set s.value _ ⟨hok.1, hok.2.1⟩ j, if_neg hji]
      · show getT s.pending j = getT (s.pending.set i.toNat false) j
        rw [getT_set s.pending _ ⟨hok.1, hok.2.2.2⟩ j, if_neg hji]
    · rw [INVp_base (by omega)]
      exact ⟨hi0, by simpa using hok.2.1, hok.2.2.1, by simpa using hok.2.2.2⟩
    · show getT (s.pending.set i.toNat false) i = false
      rw [getT_set s.pending _ ⟨hok.1, hok.2.2.2⟩ i, if_pos rfl]
    · show getT (s.value.set i.toNat _) i = _
      rw [getT_set s.value _ ⟨hok.1, hok.2.1⟩ i, if_pos rfl]
    · intro j
      rw [staleF_base (by omega), staleF_base (by omega)]
      show getT (s.value.set i.toNat _) i = _
      rw [getT_set s.value _ ⟨hok.1, hok.2.1⟩ i, if_pos rfl,
        show hi - lo + 1 = 1 by omega]
  · -- internal node: lo < hi
    obtain ⟨-, hval, hIl, hIr⟩ := (INVp_int h0 hlt).1 hInv
    have hokl := INVp_okIdx hIl
    have hokr := INVp_okIdx hIr
    have hm := mid_lt h0 hlt
    obtain ⟨s', hs'⟩ : ∃ x : SegTree T, x = { s with
        value := s.value.set i.toNat
          (ops.join_value_with_delta (getT s.value i) d (hi - lo + 1))
        delta := (s.delta.set (2*i + 1).toNat
            (if getT s.pending (2*i + 1) then ops.join_deltas (getT s.delta (2*i + 1)) d
              else d)).set (2*i + 2).toNat
            (if getT s.pending (2*i + 2) then ops.join_deltas (getT s.delta (2*i + 2)) d
              else d)
        pending := ((s.pending.set (2*i + 1).toNat true).set (2*i + 2).toNat
            true).set i.toNat false } := ⟨_, rfl⟩
    have hrun : update_delta ops i d lo hi s = .ok s' := by
      rw [hs']
      exact ud_run_int hok hokl hokr hp (by omega)
    have hv : ∀ j, getT s'.value j
        = if j = i then ops.join_value_with_delta (getT s.value i) d (hi - lo + 1)
          else getT s.value j := by
      intro j
      rw [hs']
      exact getT_set s.value _ ⟨hok.1, hok.2.1⟩ j
    have hd : ∀ j, getT s'.delta j
        = if j = 2*i + 2 then
            (if getT s.pending (2*i + 2) then ops.join_deltas (getT s.delta (2*i + 2)) d
              else d)
          else if j = 2*i + 1 then
            (if getT s.pending (2*i + 1) then ops.join_deltas (getT s.delta (2*i + 1)) d
              else d)
          else getT s.delta j := by
      intro j
      rw [hs']
      show getT ((s.delta.set (2*i + 1).toNat _).set (2*i + 2).toNat _) j = _
      rw [getT_set _ _ ⟨hokr.1, by simpa using hokr.2.2.1⟩ j]
      by_cases hj : j = 2*i + 2
      · rw [if_pos hj, if_pos hj]
      · rw [if_neg hj, if_neg hj, getT_set s.delta _ ⟨hokl.1, hokl.2.2.1⟩ j]
    have hpe : ∀ j, getT s'.pending j
        = if j = i then false else if j = 2*i + 2 then true
          else if j = 2*i + 1 then true else getT s.pending j := by
      intro j
      rw [hs']
      show getT (((s.pending.set (2*i + 1).toNat true).set (2*i + 2).toNat
        true).set i.toNat false) j = _
      rw [getT_set _ _ ⟨hok.1, by simpa using hok.2.2.2⟩ j]
      by_cases hj : j = i
      · rw [if_pos hj, if_pos hj]
      · rw [if_neg hj, if_neg hj, getT_set _ _ ⟨hokr.1, by simpa using hokr.2.2.2⟩ j]
        by_cases hj2 : j = 2*i + 2
        · rw [if_pos hj2, if_pos hj2]
        · rw [if_neg hj2, if_neg hj2, getT_set s.pending _ ⟨hokl.1, hokl.2.2.2⟩ j]
    have hshape : SameShape s s' := by
      rw [hs']
      exact ⟨rfl, (List.length_set _ _ _).symm, by simp, by simp⟩
    have hframe : ∀ j, ¬ DescI i j → ReadsEq s s' j := by
      intro j hnd
      have hji : j ≠ i := fun hc => hnd (by rw [hc]; exact DescI.refl hi0)
      have hjl : j ≠ 2*i + 1 := fun hc => hnd (by rw [hc]; exact DescI.child_left hi0)
      have hjr : j ≠ 2*i + 2 := fun hc => hnd (by rw [hc]; exact DescI.child_right hi0)
      refine ⟨?_, ?_, ?_⟩
      · rw [hv j, if_neg hji]
      · rw [hd j, if_neg hjr, if_neg hjl]
      · rw [hpe j, if_neg hji, if_neg hjr, if_neg hjl]
    have hgrand : ∀ m, 2*i + 2 < m → ReadsEq s s' m := by
      intro m hgt
      refine ⟨?_, ?_, ?_⟩
      · rw [hv m, if_neg (by omega)]
      · rw [hd m, if_neg (by omega), if_neg (by omega)]
      · rw [hpe m, if_neg (by omega), if_neg (by omega), if_neg (by omega)]
    have hgl1 : ∀ m, DescI (2*(2*i + 1) + 1) m → ReadsEq s s' m := by
      intro m hdm
      have := hdm.le
      have h2 := hdm.1
      exact hgrand m (by omega)
    have hgl2 : ∀ m, DescI (2*(2*i + 1) + 2) m → ReadsEq s s' m := by
      intro m hdm
      have := hdm.le
      have h2 := hdm.1
      exact hgrand m (by omega)
    have hgr1 : ∀ m, DescI (2*(2*i + 2) + 1) m → ReadsEq s s' m := by
      intro m hdm
      have := hdm.le
      have h2 := hdm.1
      exact hgrand m (by omega)
    have hgr2 : ∀ m, DescI (2*(2*i + 2) + 2) m → ReadsEq s s' m := by
      intro m hdm
      have := hdm.le
      have h2 := hdm.1
      exact hgrand m (by omega)
    have hstale : ∀ j, staleF ops s' i lo hi j
        = ops.join_value_with_delta (staleF ops s i lo hi j) d 1 := by
      intro j
      by_cases hj : j ≤ cdiv (lo + hi) 2
      · rw [staleF_left h0 hlt hj, staleF_left h0 hlt hj,
          leafF_stale laws, mergeD_none_right, leafF_stale laws, mergeD_none_right]
        have hsc : staleF ops s' (2*i + 1) lo (cdiv (lo + hi) 2) j
            = staleF ops s (2*i + 1) lo (cdiv (lo + hi) 2) j :=
          (staleF_congr (by omega) (((hv (2*i + 1)).trans (if_neg (by omega))).symm)
            hgl1 hgl2 j).symm
        have hpl' : getT s'.pending (2*i + 1) = true := by
          rw [hpe (2*i + 1), if_neg (by omega), if_neg (by omega), if_pos rfl]
        have hdl' : getT s'.delta (2*i + 1)
            = (if getT s.pending (2*i + 1) then ops.join_deltas (getT s.delta (2*i + 1)) d
                else d) := by
          rw [hd (2*i + 1), if_neg (by omega), if_pos rfl]
        have heff : effD s' (2*i + 1) = mergeD ops (effD s (2*i + 1)) (some d) := by
          unfold effD
          rw [hpl', hdl', if_pos rfl]
          by_cases hpl : getT s.pending (2*i + 1)
          · rw [if_pos hpl, if_pos hpl]
            rfl
          · rw [if_neg hpl, if_neg hpl]
            rfl
        rw [hsc, heff, ← applyD_mergeD laws, applyD_some]
      · rw [staleF_right h0 hlt hj, staleF_right h0 hlt hj,
          leafF_stale laws, mergeD_none_right, leafF_stale laws, mergeD_none_right]
        have hsc : staleF ops s' (2*i + 2) (cdiv (lo + hi) 2 + 1) hi j
            = staleF ops s (2*i + 2) (cdiv (lo + hi) 2 + 1) hi j :=
          (staleF_congr (by omega) (((hv (2*i + 2)).trans (if_neg (by omega))).symm)
            hgr1 hgr2 j).symm
        have hpr' : getT s'.pending (2*i + 2) = true := by
          rw [hpe (2*i + 2), if_neg (by omega), if_pos rfl]
        have hdr' : getT s'.delta (2*i + 2)
            = (if getT s.pending (2*i + 2) then ops.join_deltas (getT s.delta (2*i + 2)) d
                else d) := by
          rw [hd (2*i + 2), if_pos rfl]
        have heff : effD s' (2*i + 2) = mergeD ops (effD s (2*i + 2)) (some d) := by
          unfold effD
          rw [hpr', hdr', if_pos rfl]
          by_cases hpr : getT s.pending (2*i + 2)
          · rw [if_pos hpr, if_pos hpr]
            rfl
          · rw [if_neg hpr, if_neg hpr]
            rfl
        rw [hsc, heff, ← applyD_mergeD laws, applyD_some]
    have hINV : INVp ops s' i lo hi := by
      rw [INVp_int h0 hlt]
      refine ⟨okIdx_of_shape hshape hok, ?_, ?_, ?_⟩
      · rw [foldF_congr (by omega) (fun j a b => hstale j),
          foldF_distrib laws h1, ← hval, hv i, if_pos rfl]
      · exact INVp_mono hshape (2*i + 1) lo (cdiv (lo + hi) 2)
          (((hv (2*i + 1)).trans (if_neg (by omega))).symm) hgl1 hgl2 hIl
      · exact INVp_mono hshape (2*i + 2) (cdiv (lo + hi) 2 + 1) hi
          (((hv (2*i + 2)).trans (if_neg (by omega))).symm) hgr1 hgr2 hIr
    exact ⟨s', hrun, hshape, hframe, hINV,
      by rw [hpe i, if_pos rfl], by rw [hv i, if_pos rfl], hstale⟩

end SpecSide

section SpecSide

variable [Inhabited T] {ops : SegOps T}

/-- The resolve step performed at the entry of `query`/`update`:
`update_delta(i, delta[i], lo, hi)` clears the flag, leaves the logical
leaves of the subtree unchanged, and caches the true aggregate in
`value[i]`. -/
theorem ud_resolve (laws : LawfulOps ops) {s : SegTree T} {i lo hi : Int}
    (hInv : INVp ops s i lo hi) (h0 : 0 ≤ lo) (h1 : lo ≤ hi) :
    ∃ s', update_delta ops i (getT s.delta i) lo hi s = .ok s' ∧ SameShape s s' ∧
      (∀ j, ¬ DescI i j → ReadsEq s s' j) ∧
      INVp ops s' i lo hi ∧ getT s'.pending i = false ∧
      (∀ j, leafF ops s' i lo hi none j = leafF ops s i lo hi none j) ∧
      getT s'.value i = foldF ops (leafF ops s i lo hi none) lo hi := by
  have hok := INVp_okIdx hInv
  by_cases hp : getT s.pending i = true
  · have hlf : ∀ j, leafF ops s i lo hi none j
        = ops.join_value_with_delta (staleF ops s i lo hi j) (getT s.delta i) 1 := by
      intro j
      rw [leafF_stale laws, mergeD_none_right]
      unfold effD
      rw [hp]
      rfl
    obtain ⟨s', hrun, hsh, hfr, hI, hpe, hveq, hst⟩ := ud_push laws hInv h0 h1 hp
    refine ⟨s', hrun, hsh, hfr, hI, hpe, ?_, ?_⟩
    · intro j
      rw [leafF_of_not_pending laws hpe, hst j, ← hlf j]
    · rw [hveq, INVp_value laws hInv h0 h1,
        foldF_congr h1 (fun j a b => hlf j), foldF_distrib laws h1]
  · have hp' : getT s.pending i = false := by
      cases h : getT s.pending i
      · rfl
      · exact absurd h hp
    obtain ⟨s', hrun, hsh, hre⟩ := ud_clear hok hp'
    have hag : ∀ m, DescI i m → ReadsEq s s' m := fun m _ => hre m
    refine ⟨s', hrun, hsh, fun j _ => hre j, INVp_mono_sub hsh hag hInv, ?_, ?_, ?_⟩
    · rw [← (hre i).2.2, hp']
    · intro j
      exact (leafF_congr i lo hi hok.1 hag none j).symm
    · rw [← (hre i).1, INVp_value laws hInv h0 h1]
      exact foldF_congr h1 (fun j a b => (leafF_of_not_pending laws hp' lo hi j).symm)

/-- The fully-covered case of `update`: setting the pending flag and
immediately resolving with the new delta `d` applies `d` to every logical
leaf of the subtree and to the cached aggregate. -/
theorem ud_cover (laws : LawfulOps ops) {s : SegTree T} {i lo hi : Int} {d : T}
    (hInv : INVp ops s i lo hi) (h0 : 0 ≤ lo) (h1 : lo ≤ hi)
    (hp : getT s.pending i = false) :
    ∃ s', update_delta ops i d lo hi
        { s with pending := s.pending.set i.toNat true } = .ok s' ∧
      SameShape s s' ∧ (∀ j, ¬ DescI i j → ReadsEq s s' j) ∧
      INVp ops s' i lo hi ∧ getT s'.pending i = false ∧
      (∀ j, leafF ops s' i lo hi none j
        = ops.join_value_with_delta (leafF ops s i lo hi none j) d 1) ∧
      getT s'.value i = ops.join_value_with_delta (getT s.value i) d (hi - lo + 1) := by
  have hok := INVp_okIdx hInv
  have hi0 : 0 ≤ i := hok.1
  obtain ⟨s₂, hs₂⟩ : ∃ x : SegTree T,
      x = { s with pending := s.pending.set i.toNat true } := ⟨_, rfl⟩
  have hsh₂ : SameShape s s₂ := by
    rw [hs₂]
    exact ⟨rfl, rfl, rfl, (List.length_set _ _ _).symm⟩
  have hpe₂ : ∀ j, getT s₂.pending j = if j = i then true else getT s.pending j := by
    intro j
    rw [hs₂]
    exact getT_set s.pending _ ⟨hok.1, hok.2.2.2⟩ j
  have hv₂ : ∀ j, getT s₂.value j = getT s.value j := by
    intro j
    rw [hs₂]
  have hd₂ : ∀ j, getT s₂.delta j = getT s.delta j := by
    intro j
    rw [hs₂]
  have hre₂ : ∀ j, j ≠ i → ReadsEq s s₂ j := by
    intro j hj
    exact ⟨(hv₂ j).symm, (hd₂ j).symm, by rw [hpe₂ j, if_neg hj]⟩
  have hch1 : ∀ m, DescI (2*i + 1) m → ReadsEq s s₂ m := by
    intro m hm
    have h2 := hm.le
    have h3 := hm.1
    exact hre₂ m (by omega)
  have hch2 : ∀ m, DescI (2*i + 2) m → ReadsEq s s₂ m := by
    intro m hm
    have h2 := hm.le
    have h3 := hm.1
    exact hre₂ m (by omega)
  have hI₂ : INVp ops s₂ i lo hi := INVp_mono hsh₂ i lo hi (hv₂ i).symm hch1 hch2 hInv
  have hp₂ : getT s₂.pending i = true := by
    rw [hpe₂ i, if_pos rfl]
  obtain ⟨s', hrun, hsh, hfr, hI, hpe', hveq, hst⟩ := ud_push laws hI₂ h0 h1 hp₂
  rw [hs₂] at hrun
  refine ⟨s', hrun, hsh₂.comp hsh, ?_, hI, hpe', ?_, ?_⟩
  · intro j hnd
    have hji : j ≠ i := fun hc => hnd (by rw [hc]; exact DescI.refl hi0)
    exact (hre₂ j hji).trans (hfr j hnd)
  · intro j
    rw [leafF_of_not_pending laws hpe', hst j, leafF_of_not_pending laws hp,
      ← staleF_congr hi0 (hv₂ i).symm hch1 hch2 j]
  · rw [hveq, hv₂ i]

end SpecSide

section SpecSide

variable [Inhabited T] {ops : SegOps T}

/-- Re-establishing the invariant of an internal node after its children
have been visited but their logical leaves are unchanged (the situation
after the recursive calls of `query`). -/
theorem reassemble_query (laws : LawfulOps ops) {s₁ s₃ : SegTree T} {i lo hi : Int}
    (hI₁ : INVp ops s₁ i lo hi) (h0 : 0 ≤ lo) (hlt : lo < hi)
    (hpe₁ : getT s₁.pending i = false)
    (hsh : SameShape s₁ s₃)
    (hre_i : ReadsEq s₁ s₃ i)
    (hIl₃ : INVp ops s₃ (2*i + 1) lo (cdiv (lo + hi) 2))
    (hIr₃ : INVp ops s₃ (2*i + 2) (cdiv (lo + hi) 2 + 1) hi)
    (hpresl : ∀ j, leafF ops s₃ (2*i + 1) lo (cdiv (lo + hi) 2) none j
      = leafF ops s₁ (2*i + 1) lo (cdiv (lo + hi) 2) none j)
    (hpresr : ∀ j, leafF ops s₃ (2*i + 2) (cdiv (lo + hi) 2 + 1) hi none j
      = leafF ops s₁ (2*i + 2) (cdiv (lo + hi) 2 + 1) hi none j) :
    INVp ops s₃ i lo hi ∧ getT s₃.pending i = false ∧
      (∀ j, leafF ops s₃ i lo hi none j = leafF ops s₁ i lo hi none j) := by
  have hok := INVp_okIdx hI₁
  have hpe₃ : getT s₃.pending i = false := by
    rw [← hre_i.2.2, hpe₁]
  have hstale : ∀ j, staleF ops s₃ i lo hi j = staleF ops s₁ i lo hi j := by
    intro j
    by_cases hj : j ≤ cdiv (lo + hi) 2
    · rw [staleF_left h0 hlt hj, staleF_left h0 hlt hj, hpresl j]
    · rw [staleF_right h0 hlt hj, staleF_right h0 hlt hj, hpresr j]
  have hlf : ∀ j, leafF ops s₃ i lo hi none j = leafF ops s₁ i lo hi none j := by
    intro j
    rw [leafF_of_not_pending laws hpe₃, leafF_of_not_pending laws hpe₁, hstale j]
  refine ⟨?_, hpe₃, hlf⟩
  rw [INVp_int h0 hlt]
  refine ⟨okIdx_of_shape hsh hok, ?_, hIl₃, hIr₃⟩
  rw [← hre_i.1, ((INVp_int h0 hlt).1 hI₁).2.1]
  exact foldF_congr (by omega) (fun j a b => (hstale j).symm)

end SpecSide

section SpecSide

variable [Inhabited T] {ops : SegOps T}

/-- Correctness of the private `query` recursion: with the invariant and a
target range inside the node's span (and sufficient fuel — the public
wrapper always supplies it), the call returns the fold of the logical leaf
values over the target, touches only the subtree of `i`, and leaves the
logical leaves unchanged. -/
theorem queryA_ok (laws : LawfulOps ops) :
    ∀ (fuel : Nat) (i lo hi tlo thi : Int) (s : SegTree T),
      INVp ops s i lo hi → 0 ≤ lo → lo ≤ tlo → tlo ≤ thi → thi ≤ hi →
      (hi - lo).toNat < fuel →
      ∃ s', queryA ops fuel i lo hi tlo thi s
          = .ok (foldF ops (leafF ops s i lo hi none) tlo thi, s') ∧
        SameShape s s' ∧ (∀ j, ¬ DescI i j → ReadsEq s s' j) ∧
        INVp ops s' i lo hi ∧ getT s'.pending i = false ∧
        (∀ j, leafF ops s' i lo hi none j = leafF ops s i lo hi none j) := by
  intro fuel
  induction fuel with
  | zero =>
    intro i lo hi tlo thi s hI h0 h1 h2 h3 hf
    omega
  | succ fuel ih =>
    intro i lo hi tlo thi s hI h0 h1 h2 h3 hf
    have hok := INVp_okIdx hI
    have hi0 : 0 ≤ i := hok.1
    obtain ⟨s₁, hrun, hsh₁, hfr₁, hI₁, hpe₁, hpres₁, hval₁⟩ :=
      ud_resolve laws hI h0 (by omega)
    have hok₁ := INVp_okIdx hI₁
    by_cases hx : lo = tlo ∧ hi = thi
    · obtain ⟨rfl, rfl⟩ := hx
      refine ⟨s₁, ?_, hsh₁, hfr₁, hI₁, hpe₁, hpres₁⟩
      simp only [queryA]
      rw [getE_ok ⟨hi0, hok.2.2.1⟩]
      simp only [bindE_ok]
      rw [hrun]
      simp only [bindE_ok]
      rw [if_pos (⟨trivial, trivial⟩ : True ∧ True), getE_ok ⟨hi0, hok₁.2.1⟩]
      simp only [bindE_ok]
      rw [hval₁]
      rfl
    · have hlthi : lo < hi := by omega
      have hm := mid_lt h0 hlthi
      obtain ⟨hIl₁, hIr₁⟩ := ((INVp_int h0 hlthi).1 hI₁).2.2
      have hstale₁ : ∀ j, lo ≤ j → j ≤ hi →
          leafF ops s₁ i lo hi none j
            = if j ≤ cdiv (lo + hi) 2 then
                leafF ops s₁ (2*i + 1) lo (cdiv (lo + hi) 2) none j
              else leafF ops s₁ (2*i + 2) (cdiv (lo + hi) 2 + 1) hi none j := by
        intro j a b
        rw [leafF_of_not_pending laws hpe₁]
        by_cases hj : j ≤ cdiv (lo + hi) 2
        · rw [if_pos hj, staleF_left h0 hlthi hj]
        · rw [if_neg hj, staleF_right h0 hlthi hj]
      by_cases hc : tlo ≤ cdiv (lo + hi) 2 ∧ cdiv (lo + hi) 2 < thi
      · -- the target range straddles the midpoint: both children visited
        obtain ⟨s₂, hq1, hsh₂, hfr₂, hI₂, hpe₂, hpres₂⟩ :=
          ih (2*i + 1) lo (cdiv (lo + hi) 2) tlo (cdiv (lo + hi) 2) s₁ hIl₁ h0 h1
            hc.1 le_rfl (by omega)
        have hIr₂ : INVp ops s₂ (2*i + 2) (cdiv (lo + hi) 2 + 1) hi :=
          INVp_mono_sub hsh₂ (agree_of_frame_right hi0 hfr₂) hIr₁
        obtain ⟨s₃, hq2, hsh₃, hfr₃, hI₃, hpe₃, hpres₃⟩ :=
          ih (2*i + 2) (cdiv (lo + hi) 2 + 1) hi (cdiv (lo + hi) 2 + 1) thi s₂ hIr₂
            (by omega) le_rfl (by omega) h3 (by omega)
        have hre_i : ReadsEq s₁ s₃ i :=
          (hfr₂ i (fun hc => DescI.not_child_self_left hc)).trans
            (hfr₃ i (fun hc => DescI.not_child_self_right hc))
        have hIl₃ : INVp ops s₃ (2*i + 1) lo (cdiv (lo + hi) 2) :=
          INVp_mono_sub hsh₃ (agree_of_frame_left hi0 hfr₃) hI₂
        have hpresl₃ : ∀ j, leafF ops s₃ (2*i + 1) lo (cdiv (lo + hi) 2) none j
            = leafF ops s₁ (2*i + 1) lo (cdiv (lo + hi) 2) none j := by
          intro j
          rw [← leafF_congr (2*i + 1) lo (cdiv (lo + hi) 2) (by omega)
            (agree_of_frame_left hi0 hfr₃) none j, hpres₂ j]
        have hpresr₃ : ∀ j, leafF ops s₃ (2*i + 2) (cdiv (lo + hi) 2 + 1) hi none j
            = leafF ops s₁ (2*i + 2) (cdiv (lo + hi) 2 + 1) hi none j := by
          intro j
          rw [hpres₃ j,
            ← leafF_congr (2*i + 2) (cdiv (lo + hi) 2 + 1) hi (by omega)
              (agree_of_frame_right hi0 hfr₂) none j]
        obtain ⟨hI₃i, hpe₃i, hlf₃⟩ := reassemble_query laws hI₁ h0 hlthi hpe₁
          (hsh₂.comp hsh₃) hre_i hIl₃ hI₃ hpresl₃ hpresr₃
        have hfold : foldF ops (leafF ops s i lo hi none) tlo thi
            = ops.join_values
                (foldF ops (leafF ops s₁ (2*i + 1) lo (cdiv (lo + hi) 2) none) tlo
                  (cdiv (lo + hi) 2))
                (foldF ops (leafF ops s₂ (2*i + 2) (cdiv (lo + hi) 2 + 1) hi none)
                  (cdiv (lo + hi) 2 + 1) thi) := by
          rw [← foldF_congr h2 (fun j a b => hpres₁ j),
            foldF_split laws hc.1 hc.2]
          congr 1
          · refine foldF_congr hc.1 (fun j a b => ?_)
            rw [hstale₁ j (by omega) (by omega), if_pos (by omega)]
          · refine foldF_congr (by omega) (fun j a b => ?_)
            rw [hstale₁ j (by omega) (by omega), if_neg (by omega),
              leafF_congr (2*i + 2) (cdiv (lo + hi) 2 + 1) hi (by omega)
                (agree_of_frame_right hi0 hfr₂) none j]
        refine ⟨s₃, ?_, hsh₁.comp (hsh₂.comp hsh₃), ?_, hI₃i, hpe₃i,
          fun j => (hlf₃ j).trans (hpres₁ j)⟩
        · simp only [queryA]
          rw [getE_ok ⟨hi0, hok.2.2.1⟩]
          simp only [bindE_ok]
          rw [hrun]
          simp only [bindE_ok]
          rw [if_neg hx, show i*2 + 1 = 2*i + 1 by ring, show i*2 + 2 = 2*i + 2 by ring,
            min_eq_right (le_of_lt hc.2), max_eq_right (by omega : tlo ≤ cdiv (lo + hi) 2 + 1),
            if_pos hc, hq1]
          simp only [bindE_ok]
          rw [hq2]
          simp only [bindE_ok]
          rw [hfold]
          rfl
        · intro j hnd
          have hnl : ¬ DescI (2*i + 1) j := fun hc => hnd (DescI.up_left hi0 hc)
          have hnr : ¬ DescI (2*i + 2) j := fun hc => hnd (DescI.up_right hi0 hc)
          exact ((hfr₁ j hnd).trans (hfr₂ j hnl)).trans (hfr₃ j hnr)
      · by_cases hc2 : tlo ≤ cdiv (lo + hi) 2
        · -- the whole target lies in the left child
          have hthi : thi ≤ cdiv (lo + hi) 2 := by omega
          obtain ⟨s₂, hq1, hsh₂, hfr₂, hI₂, hpe₂, hpres₂⟩ :=
            ih (2*i + 1) lo (cdiv (lo + hi) 2) tlo thi s₁ hIl₁ h0 h1 h2 hthi (by omega)
          have hre_i : ReadsEq s₁ s₂ i :=
            hfr₂ i (fun hc => DescI.not_child_self_left hc)
          have hIr₂ : INVp ops s₂ (2*i + 2) (cdiv (lo + hi) 2 + 1) hi :=
            INVp_mono_sub hsh₂ (agree_of_frame_right hi0 hfr₂) hIr₁
          have hpresr₂ : ∀ j, leafF ops s₂ (2*i + 2) (cdiv (lo + hi) 2 + 1) hi none j
              = leafF ops s₁ (2*i + 2) (cdiv (lo + hi) 2 + 1) hi none j := by
            intro j
            rw [← leafF_congr (2*i + 2) (cdiv (lo + hi) 2 + 1) hi (by omega)
              (agree_of_frame_right hi0 hfr₂) none j]
          obtain ⟨hI₂i, hpe₂i, hlf₂⟩ := reassemble_query laws hI₁ h0 hlthi hpe₁
            hsh₂ hre_i hI₂ hIr₂ hpres₂ hpresr₂
          have hfold : foldF ops (leafF ops s i lo hi none) tlo thi
              = foldF ops (leafF ops s₁ (2*i + 1) lo (cdiv (lo + hi) 2) none) tlo thi := by
            rw [← foldF_congr h2 (fun j a b => hpres₁ j)]
            refine foldF_congr h2 (fun j a b => ?_)
            rw [hstale₁ j (by omega) (by omega), if_pos (by omega)]
          refine ⟨s₂, ?_, hsh₁.comp hsh₂, ?_, hI₂i, hpe₂i,
            fun j => (hlf₂ j).trans (hpres₁ j)⟩
          · simp only [queryA]
            rw [getE_ok ⟨hi0, hok.2.2.1⟩]
            simp only [bindE_ok]
            rw [hrun]
            simp only [bindE_ok]
            rw [if_neg hx, show i*2 + 1 = 2*i + 1 by ring,
              min_eq_left hthi, if_neg hc, if_pos hc2, hq1, hfold]
          · intro j hnd
            have hnl : ¬ DescI (2*i + 1) j := fun hc => hnd (DescI.up_left hi0 hc)
            exact (hfr₁ j hnd).trans (hfr₂ j hnl)
        · -- the whole target lies in the right child
          have htlo : cdiv (lo + hi) 2 + 1 ≤ tlo := by omega
          obtain ⟨s₂, hq1, hsh₂, hfr₂, hI₂, hpe₂, hpres₂⟩ :=
            ih (2*i + 2) (cdiv (lo + hi) 2 + 1) hi tlo thi s₁ hIr₁ (by omega) htlo h2
              h3 (by omega)
          have hre_i : ReadsEq s₁ s₂ i :=
            hfr₂ i (fun hc => DescI.not_child_self_right hc)
          have hIl₂ : INVp ops s₂ (2*i + 1) lo (cdiv (lo + hi) 2) :=
            INVp_mono_sub hsh₂ (agree_of_frame_left hi0 hfr₂) hIl₁
          have hpresl₂ : ∀ j, leafF ops s₂ (2*i + 1) lo (cdiv (lo + hi) 2) none j
              = leafF ops s₁ (2*i + 1) lo (cdiv (lo + hi) 2) none j := by
            intro j
            rw [← leafF_congr (2*i + 1) lo (cdiv (lo + hi) 2) (by omega)
              (agree_of_frame_left hi0 hfr₂) none j]
          obtain ⟨hI₂i, hpe₂i, hlf₂⟩ := reassemble_query laws hI₁ h0 hlthi hpe₁
            hsh₂ hre_i hIl₂ hI₂ hpresl₂ hpres₂
          have hfold : foldF ops (leafF ops s i lo hi none) tlo thi
              = foldF ops (leafF ops s₁ (2*i + 2) (cdiv (lo + hi) 2 + 1) hi none)
                  tlo thi := by
            rw [← foldF_congr h2 (fun j a b => hpres₁ j)]
            refine foldF_congr h2 (fun j a b => ?_)
            rw [hstale₁ j (by omega) (by omega), if_neg (by omega)]
          refine ⟨s₂, ?_, hsh₁.comp hsh₂, ?_, hI₂i, hpe₂i,
            fun j => (hlf₂ j).trans (hpres₁ j)⟩
          · simp only [queryA]
            rw [getE_ok ⟨hi0, hok.2.2.1⟩]
            simp only [bindE_ok]
            rw [hrun]
            simp only [bindE_ok]
            rw [if_neg hx, show i*2 + 2 = 2*i + 2 by ring,
              max_eq_left htlo, if_neg hc, if_neg hc2, hq1, hfold]
          · intro j hnd
            have hnr : ¬ DescI (2*i + 2) j := fun hc => hnd (DescI.up_right hi0 hc)
            exact (hfr₁ j hnd).trans (hfr₂ j hnr)

end SpecSide

section SpecSide

variable [Inhabited T] {ops : SegOps T}

/-- Correctness of the private `update` recursion: each logical leaf inside
both the node's span and the target range absorbs one application of `d`
(span 1); leaves outside the target are untouched; the invariant, the
frame over the subtree, and the resolved-aggregate property all hold. -/
theorem updateA_ok (laws : LawfulOps ops) :
    ∀ (fuel : Nat) (i lo hi tlo thi : Int) (d : T) (s : SegTree T),
      INVp ops s i lo hi → 0 ≤ lo → lo ≤ hi → tlo ≤ thi →
      (hi - lo).toNat < fuel →
      ∃ s', updateA ops fuel i lo hi tlo thi d s = .ok s' ∧
        SameShape s s' ∧ (∀ j, ¬ DescI i j → ReadsEq s s' j) ∧
        INVp ops s' i lo hi ∧ getT s'.pending i = false ∧
        (∀ j, lo ≤ j → j ≤ hi → leafF ops s' i lo hi none j
          = (if tlo ≤ j ∧ j ≤ thi then
              ops.join_value_with_delta (leafF ops s i lo hi none j) d 1
            else leafF ops s i lo hi none j)) ∧
        getT s'.value i = foldF ops (leafF ops s' i lo hi none) lo hi := by
  intro fuel
  induction fuel with
  | zero =>
    intro i lo hi tlo thi d s hI h0 h1 h2 hf
    omega
  | succ fuel ih =>
    intro i lo hi tlo thi d s hI h0 h1 h2 hf
    have hok := INVp_okIdx hI
    have hi0 : 0 ≤ i := hok.1
    obtain ⟨s₁, hrun, hsh₁, hfr₁, hI₁, hpe₁, hpres₁, hval₁⟩ :=
      ud_resolve laws hI h0 h1
    have hok₁ := INVp_okIdx hI₁
    by_cases hdisj : hi < tlo ∨ lo > thi
    · -- disjoint: the resolved state is returned unchanged
      refine ⟨s₁, ?_, hsh₁, hfr₁, hI₁, hpe₁, ?_, ?_⟩
      · simp only [updateA]
        rw [getE_ok ⟨hi0, hok.2.2.1⟩]
        simp only [bindE_ok]
        rw [hrun]
        simp only [bindE_ok]
        rw [if_pos hdisj]
        rfl
      · intro j a b
        rw [if_neg (by omega), hpres₁ j]
      · rw [hval₁]
        exact foldF_congr h1 (fun j a b => (hpres₁ j).symm)
    · by_cases hcov : tlo ≤ lo ∧ hi ≤ thi
      · -- full cover: set the pending flag and resolve with `d`
        obtain ⟨s₂, hrun₂, hsh₂, hfr₂, hI₂, hpe₂, hlf₂, hval₂⟩ :=
          ud_cover laws hI₁ h0 h1 hpe₁ (d := d)
        refine ⟨s₂, ?_, hsh₁.comp hsh₂, ?_, hI₂, hpe₂, ?_, ?_⟩
        · simp only [updateA]
          rw [getE_ok ⟨hi0, hok.2.2.1⟩]
          simp only [bindE_ok]
          rw [hrun]
          simp only [bindE_ok]
          rw [if_neg hdisj, if_pos hcov, setE_ok ⟨hi0, hok₁.2.2.2⟩]
          simp only [bindE_ok]
          exact hrun₂
        · intro j hnd
          exact (hfr₁ j hnd).trans (hfr₂ j hnd)
        · intro j a b
          rw [if_pos (by omega), hlf₂ j, hpres₁ j]
        · rw [hval₂, hval₁,
            foldF_congr h1 (fun j a b => hlf₂ j), foldF_distrib laws h1]
          exact congrArg (fun z => ops.join_value_with_delta z d (hi - lo + 1))
            (foldF_congr h1 (fun j a b => (hpres₁ j).symm))
      · -- partial overlap: recurse into both children, then re-join
        have hlthi : lo < hi := by omega
        have hm := mid_lt h0 hlthi
        obtain ⟨hIl₁, hIr₁⟩ := ((INVp_int h0 hlthi).1 hI₁).2.2
        obtain ⟨s₂, hq1, hsh₂, hfr₂, hI₂, hpe₂, hfla₂, hvla₂⟩ :=
          ih (2*i + 1) lo (cdiv (lo + hi) 2) tlo thi d s₁ hIl₁ h0 (by omega) h2
            (by omega)
        have hIr₂ : INVp ops s₂ (2*i + 2) (cdiv (lo + hi) 2 + 1) hi :=
          INVp_mono_sub hsh₂ (agree_of_frame_right hi0 hfr₂) hIr₁
        obtain ⟨s₃, hq2, hsh₃, hfr₃, hI₃, hpe₃, hfla₃, hvla₃⟩ :=
          ih (2*i + 2) (cdiv (lo + hi) 2 + 1) hi tlo thi d s₂ hIr₂ (by omega)
            (by omega) h2 (by omega)
        have hokl₃ : okIdx s₃ (2*i + 1) :=
          okIdx_of_shape hsh₃ (INVp_okIdx hI₂)
        have hokr₃ : okIdx s₃ (2*i + 2) := INVp_okIdx hI₃
        have hoki₃ : okIdx s₃ i := okIdx_of_shape (hsh₂.comp hsh₃)
          (okIdx_of_shape hsh₁ hok)
        obtain ⟨s₄, hs₄⟩ : ∃ x : SegTree T, x = { s₃ with
            value := s₃.value.set i.toNat
              (ops.join_values (getT s₃.value (2*i + 1)) (getT s₃.value (2*i + 2))) }
          := ⟨_, rfl⟩
        have hsh₄ : SameShape s₃ s₄ := by
          rw [hs₄]
          exact ⟨rfl, (List.length_set _ _ _).symm, rfl, rfl⟩
        have hv₄ : ∀ j, getT s₄.value j
            = if j = i then
                ops.join_values (getT s₃.value (2*i + 1)) (getT s₃.value (2*i + 2))
              else getT s₃.value j := by
          intro j
          rw [hs₄]
          exact getT_set s₃.value _ ⟨hoki₃.1, hoki₃.2.1⟩ j
        have hre₄ : ∀ j, j ≠ i → ReadsEq s₃ s₄ j := by
          intro j hj
          refine ⟨?_, by rw [hs₄], by rw [hs₄]⟩
          rw [hv₄ j, if_neg hj]
        have hagl₄ : ∀ m, DescI (2*i + 1) m → ReadsEq s₃ s₄ m := by
          intro m hm'
          have h5 := hm'.le
          have h6 := hm'.1
          exact hre₄ m (by omega)
        have hagr₄ : ∀ m, DescI (2*i + 2) m → ReadsEq s₃ s₄ m := by
          intro m hm'
          have h5 := hm'.le
          have h6 := hm'.1
          exact hre₄ m (by omega)
        -- the left child is untouched by the right call and the final write
        have hagl₃ : ∀ m, DescI (2*i + 1) m → ReadsEq s₂ s₄ m := by
          intro m hm'
          exact (agree_of_frame_left hi0 hfr₃ m hm').trans (hagl₄ m hm')
        have hIl₄ : INVp ops s₄ (2*i + 1) lo (cdiv (lo + hi) 2) :=
          INVp_mono_sub (hsh₃.comp hsh₄) hagl₃ hI₂
        have hIr₄ : INVp ops s₄ (2*i + 2) (cdiv (lo + hi) 2 + 1) hi :=
          INVp_mono_sub hsh₄ hagr₄ hI₃
        have hlfl₄ : ∀ j, leafF ops s₄ (2*i + 1) lo (cdiv (lo + hi) 2) none j
            = leafF ops s₂ (2*i + 1) lo (cdiv (lo + hi) 2) none j := by
          intro j
          exact (leafF_congr _ _ _ (by omega) hagl₃ none j).symm
        have hlfr₄ : ∀ j, leafF ops s₄ (2*i + 2) (cdiv (lo + hi) 2 + 1) hi none j
            = leafF ops s₃ (2*i + 2) (cdiv (lo + hi) 2 + 1) hi none j := by
          intro j
          exact (leafF_congr _ _ _ (by omega) hagr₄ none j).symm
        -- pending flag of `i` stays cleared through both calls and the write
        have hpe₄ : getT s₄.pending i = false := by
          have e1 := (hfr₂ i (fun hc => DescI.not_child_self_left hc)).2.2
          have e2 := (hfr₃ i (fun hc => DescI.not_child_self_right hc)).2.2
          have e3 : getT s₃.pending i = getT s₄.pending i := by rw [hs₄]
          rw [← e3, ← e2, ← e1, hpe₁]
        -- cached child aggregates at the moment of the re-join
        have hvl₃ : getT s₃.value (2*i + 1)
            = foldF ops (leafF ops s₂ (2*i + 1) lo (cdiv (lo + hi) 2) none) lo
                (cdiv (lo + hi) 2) := by
          rw [← (agree_of_frame_left hi0 hfr₃ (2*i + 1)
            (DescI.refl (by omega))).1, hvla₂]
        have hvr₃ : getT s₃.value (2*i + 2)
            = foldF ops (leafF ops s₃ (2*i + 2) (cdiv (lo + hi) 2 + 1) hi none)
                (cdiv (lo + hi) 2 + 1) hi := hvla₃
        -- the stale view of `i` in the final state
        have hstale₄ : ∀ j, staleF ops s₄ i lo hi j
            = (if j ≤ cdiv (lo + hi) 2 then
                leafF ops s₂ (2*i + 1) lo (cdiv (lo + hi) 2) none j
              else leafF ops s₃ (2*i + 2) (cdiv (lo + hi) 2 + 1) hi none j) := by
          intro j
          by_cases hj : j ≤ cdiv (lo + hi) 2
          · rw [staleF_left h0 hlthi hj, if_pos hj, hlfl₄ j]
          · rw [staleF_right h0 hlthi hj, if_neg hj, hlfr₄ j]
        have hval₄ : getT s₄.value i = foldF ops (staleF ops s₄ i lo hi) lo hi := by
          rw [hv₄ i, if_pos rfl, hvl₃, hvr₃,
            @foldF_split T _ ops laws (staleF ops s₄ i lo hi) lo
              (cdiv (lo + hi) 2) hi (by omega) (by omega)]
          congr 1
          · exact (foldF_congr (by omega)
              (fun j a b => by rw [hstale₄ j, if_pos (by omega)])).symm
          · exact (foldF_congr (by omega)
              (fun j a b => by rw [hstale₄ j, if_neg (by omega)])).symm
        have hI₄ : INVp ops s₄ i lo hi := by
          rw [INVp_int h0 hlthi]
          exact ⟨okIdx_of_shape hsh₄ hoki₃, hval₄, hIl₄, hIr₄⟩
        -- leaves of `s₁` seen from the children
        have hside₁ : ∀ j, lo ≤ j → j ≤ hi →
            leafF ops s₁ i lo hi none j
              = (if j ≤ cdiv (lo + hi) 2 then
                  leafF ops s₁ (2*i + 1) lo (cdiv (lo + hi) 2) none j
                else leafF ops s₁ (2*i + 2) (cdiv (lo + hi) 2 + 1) hi none j) := by
          intro j a b
          rw [leafF_of_not_pending laws hpe₁]
          by_cases hj : j ≤ cdiv (lo + hi) 2
          · rw [if_pos hj, staleF_left h0 hlthi hj]
          · rw [if_neg hj, staleF_right h0 hlthi hj]
        have hfla : ∀ j, lo ≤ j → j ≤ hi → leafF ops s₄ i lo hi none j
            = (if tlo ≤ j ∧ j ≤ thi then
                ops.join_value_with_delta (leafF ops s i lo hi none j) d 1
              else leafF ops s i lo hi none j) := by
          intro j a b
          rw [leafF_of_not_pending laws hpe₄, hstale₄ j]
          by_cases hj : j ≤ cdiv (lo + hi) 2
          · have hLj : leafF ops s₁ (2*i + 1) lo (cdiv (lo + hi) 2) none j
                = leafF ops s i lo hi none j := by
              rw [← hpres₁ j, hside₁ j (by omega) (by omega), if_pos hj]
            rw [if_pos hj, hfla₂ j (by omega) (by omega), hLj]
          · have hrr : ∀ m, leafF ops s₂ (2*i + 2) (cdiv (lo + hi) 2 + 1) hi none m
                = leafF ops s₁ (2*i + 2) (cdiv (lo + hi) 2 + 1) hi none m :=
              fun m => (leafF_congr _ _ _ (by omega)
                (agree_of_frame_right hi0 hfr₂) none m).symm
            have hRj : leafF ops s₁ (2*i + 2) (cdiv (lo + hi) 2 + 1) hi none j
                = leafF ops s i lo hi none j := by
              rw [← hpres₁ j, hside₁ j (by omega) (by omega), if_neg hj]
            rw [if_neg hj, hfla₃ j (by omega) (by omega), hrr j, hRj]
        refine ⟨s₄, ?_, SameShape.comp (SameShape.comp (hsh₁.comp hsh₂) hsh₃) hsh₄, ?_, hI₄, hpe₄,
          hfla, ?_⟩
        · simp only [updateA]
          rw [getE_ok ⟨hi0, hok.2.2.1⟩]
          simp only [bindE_ok]
          rw [hrun]
          simp only [bindE_ok]
          rw [if_neg hdisj, if_neg hcov, hq1]
          simp only [bindE_ok]
          rw [hq2]
          simp only [bindE_ok]
          rw [getE_ok ⟨hokl₃.1, hokl₃.2.1⟩]
          simp only [bindE_ok]
          rw [getE_ok ⟨hokr₃.1, hokr₃.2.1⟩]
          simp only [bindE_ok]
          rw [setE_ok ⟨hoki₃.1, hoki₃.2.1⟩]
          simp only [bindE_ok]
          rw [hs₄]
          rfl
        · intro j hnd
          have hnl : ¬ DescI (2*i + 1) j := fun hc => hnd (DescI.up_left hi0 hc)
          have hnr : ¬ DescI (2*i + 2) j := fun hc => hnd (DescI.up_right hi0 hc)
          have hji : j ≠ i := fun hc => hnd (by rw [hc]; exact DescI.refl hi0)
          exact (((hfr₁ j hnd).trans (hfr₂ j hnl)).trans (hfr₃ j hnr)).trans
            (hre₄ j hji)
        · rw [hval₄]
          exact foldF_congr h1 (fun j a b =>
            (leafF_of_not_pending laws hpe₄ lo hi j).symm)

end SpecSide

section SpecSide

variable [Inhabited T] {ops : SegOps T}

/-- The classic `4n` bound: a node reached by the build/query/update
recursion from the root satisfies `i < 4n`.  `K = 2^depth` is tracked
symbolically: `i + 2 ≤ 2K`, and internal nodes force `K ≤ 2(n-1)`. -/
theorem node_bound {i K n : Int} (hio : 0 ≤ i) (hK : 1 ≤ K) (hiK : i + 2 ≤ 2*K)
    (hKn : K = 1 ∨ K ≤ 2*(n - 1)) (hn : 1 ≤ n) : i < 4*n := by
  omega

/-- Step of the `K`-invariant into the left child. -/
theorem kinv_left {lo hi n K : Int} (h0 : 0 ≤ lo) (hlt : lo < hi) (hK : 1 ≤ K)
    (hspan : (hi - lo) * K ≤ n - 1) :
    (cdiv (lo + hi) 2 - lo) * (2*K) ≤ n - 1 := by
  have hm2 := mid_le h0 (le_of_lt hlt)
  have h2 : 2 * (cdiv (lo + hi) 2 - lo) ≤ hi - lo := by omega
  calc (cdiv (lo + hi) 2 - lo) * (2*K) = (2 * (cdiv (lo + hi) 2 - lo)) * K := by ring
    _ ≤ (hi - lo) * K := mul_le_mul_of_nonneg_right h2 (by omega)
    _ ≤ n - 1 := hspan

/-- Step of the `K`-invariant into the right child. -/
theorem kinv_right {lo hi n K : Int} (h0 : 0 ≤ lo) (hlt : lo < hi) (hK : 1 ≤ K)
    (hspan : (hi - lo) * K ≤ n - 1) :
    (hi - (cdiv (lo + hi) 2 + 1)) * (2*K) ≤ n - 1 := by
  have hm2 := mid_le h0 (le_of_lt hlt)
  have h2 : 2 * (hi - (cdiv (lo + hi) 2 + 1)) ≤ hi - lo := by omega
  calc (hi - (cdiv (lo + hi) 2 + 1)) * (2*K)
      = (2 * (hi - (cdiv (lo + hi) 2 + 1))) * K := by ring
    _ ≤ (hi - lo) * K := mul_le_mul_of_nonneg_right h2 (by omega)
    _ ≤ n - 1 := hspan

/-- An internal node forces `K ≤ n - 1`. -/
theorem kinv_int {lo hi n K : Int} (hlt : lo < hi) (hK : 1 ≤ K)
    (hspan : (hi - lo) * K ≤ n - 1) : K ≤ n - 1 := by
  have h2 : 1 * K ≤ (hi - lo) * K := mul_le_mul_of_nonneg_right (by omega) (by omega)
  omega

/-- Correctness of the iterator-range `build` recursion: all writes are
in-bounds (within the `4n` allocation), only `value` entries inside the
subtree change, and afterwards the subtree represents
`arr[lo], ..., arr[hi]` with a coherent aggregate and no pending deltas. -/
theorem buildIt_ok (laws : LawfulOps ops) :
    ∀ (fuel : Nat) (i lo hi : Int) (arr : List T) (s : SegTree T) (n K : Int),
      0 ≤ i → 0 ≤ lo → lo ≤ hi → 1 ≤ n → 1 ≤ K →
      i + 2 ≤ 2*K → (hi - lo) * K ≤ n - 1 → (K = 1 ∨ K ≤ 2*(n - 1)) →
      hi ≤ (arr.length : Int) - 1 →
      s.value.length = (4*n).toNat → s.delta.length = (4*n).toNat →
      s.pending.length = (4*n).toNat →
      (∀ j, getT s.pending j = false) →
      (hi - lo).toNat < fuel →
      ∃ s', buildIt ops fuel i lo hi arr s = .ok s' ∧
        s'.len = s.len ∧ s'.delta = s.delta ∧ s'.pending = s.pending ∧
        s'.value.length = s.value.length ∧
        (∀ j, ¬ DescI i j → getT s'.value j = getT s.value j) ∧
        INVp ops s' i lo hi ∧
        (∀ j, lo ≤ j → j ≤ hi → leafF ops s' i lo hi none j = getT arr j) ∧
        getT s'.value i = foldF ops (leafF ops s' i lo hi none) lo hi := by
  intro fuel
  induction fuel with
  | zero =>
    intro i lo hi arr s n K hio h0 h1 hn hK hiK hspan hKn harr hl1 hl2 hl3 hpf hf
    omega
  | succ fuel ih =>
    intro i lo hi arr s n K hio h0 h1 hn hK hiK hspan hKn harr hl1 hl2 hl3 hpf hf
    have hbound : i < 4*n := node_bound hio hK hiK hKn hn
    have hoki : okIdx s i := ⟨hio, by omega, by omega, by omega⟩
    rcases eq_or_lt_of_le h1 with heq | hlt
    · -- leaf: value[i] = *(arr + lo)
      subst heq
      obtain ⟨s', hs'⟩ : ∃ x : SegTree T,
          x = { s with value := s.value.set i.toNat (getT arr lo) } := ⟨_, rfl⟩
      have hv : ∀ j, getT s'.value j
          = if j = i then getT arr lo else getT s.value j := by
        intro j
        rw [hs']
        exact getT_set s.value _ ⟨hio, hoki.2.1⟩ j
      have hpf' : ∀ j, getT s'.pending j = false := by
        intro j
        rw [hs']
        exact hpf j
      have hlf : ∀ j, lo ≤ j → j ≤ lo → leafF ops s' i lo lo none j = getT arr j := by
        intro j a b
        have hj : j = lo := by omega
        subst hj
        rw [leafF_base (by omega), mergeD_none_right]
        show applyD ops (getT s'.value i) (effD s' i) = getT arr j
        unfold effD
        rw [hpf' i, hv i, if_pos rfl]
        rfl
      refine ⟨s', ?_, by rw [hs'], by rw [hs'], by rw [hs'],
        by rw [hs']; exact List.length_set _ _ _, ?_, ?_, hlf, ?_⟩
      · simp only [buildIt]
        rw [if_pos trivial, getE_ok ⟨h0, by omega⟩]
        simp only [bindE_ok]
        rw [setE_ok ⟨hio, hoki.2.1⟩]
        simp only [bindE_ok]
        rw [hs']
        rfl
      · intro j hnd
        have hji : j ≠ i := fun hc => hnd (by rw [hc]; exact DescI.refl hio)
        rw [hv j, if_neg hji]
      · rw [INVp_base (by omega)]
        refine ⟨hio, ?_, ?_, ?_⟩ <;> rw [hs']
        · simpa using hoki.2.1
        · exact hoki.2.2.1
        · exact hoki.2.2.2
      · rw [foldF_single, hlf lo le_rfl le_rfl, hv i, if_pos rfl]
    · -- internal node
      have hm := mid_lt h0 hlt
      obtain ⟨s₂, hb1, hlen₂, hd₂, hp₂, hvl₂, hfr₂, hI₂, hlf₂, hval₂⟩ :=
        ih (2*i + 1) lo (cdiv (lo + hi) 2) arr s n (2*K) (by omega) h0 (by omega)
          hn (by omega) (by omega) (kinv_left h0 hlt hK hspan)
          (Or.inr (by have := kinv_int hlt hK hspan; omega)) (by omega)
          hl1 hl2 hl3 hpf (by omega)
      have hpf₂ : ∀ j, getT s₂.pending j = false := by
        intro j
        rw [hp₂]
        exact hpf j
      obtain ⟨s₃, hb2, hlen₃, hd₃, hp₃, hvl₃, hfr₃, hI₃, hlf₃, hval₃⟩ :=
        ih (2*i + 2) (cdiv (lo + hi) 2 + 1) hi arr s₂ n (2*K) (by omega) (by omega)
          (by omega) hn (by omega) (by omega) (kinv_right h0 hlt hK hspan)
          (Or.inr (by have := kinv_int hlt hK hspan; omega)) harr
          (by omega) (by rw [hd₂]; exact hl2) (by rw [hp₂]; exact hl3) hpf₂ (by omega)
      have hpf₃ : ∀ j, getT s₃.pending j = false := by
        intro j
        rw [hp₃]
        exact hpf₂ j
      have hsh₂ : SameShape s s₂ := ⟨hlen₂.symm, hvl₂.symm, by rw [hd₂], by rw [hp₂]⟩
      have hsh₃ : SameShape s₂ s₃ := ⟨hlen₃.symm, hvl₃.symm, by rw [hd₃], by rw [hp₃]⟩
      have hre₂ : ∀ j, ¬ DescI (2*i + 1) j → ReadsEq s s₂ j := by
        intro j hnd
        exact ⟨(hfr₂ j hnd).symm, by rw [hd₂], by rw [hp₂]⟩
      have hre₃ : ∀ j, ¬ DescI (2*i + 2) j → ReadsEq s₂ s₃ j := by
        intro j hnd
        exact ⟨(hfr₃ j hnd).symm, by rw [hd₃], by rw [hp₃]⟩
      have hokl₃ : okIdx s₃ (2*i + 1) := okIdx_of_shape hsh₃ (INVp_okIdx hI₂)
      have hokr₃ : okIdx s₃ (2*i + 2) := INVp_okIdx hI₃
      have hoki₃ : okIdx s₃ i := okIdx_of_shape (hsh₂.comp hsh₃) hoki
      obtain ⟨s₄, hs₄⟩ : ∃ x : SegTree T, x = { s₃ with
          value := s₃.value.set i.toNat
            (ops.join_values (getT s₃.value (2*i + 1)) (getT s₃.value (2*i + 2))) }
        := ⟨_, rfl⟩
      have hsh₄ : SameShape s₃ s₄ := by
        rw [hs₄]
        exact ⟨rfl, (List.length_set _ _ _).symm, rfl, rfl⟩
      have hv₄ : ∀ j, getT s₄.value j
          = if j = i then
              ops.join_values (getT s₃.value (2*i + 1)) (getT s₃.value (2*i + 2))
            else getT s₃.value j := by
        intro j
        rw [hs₄]
        exact getT_set s₃.value _ ⟨hoki₃.1, hoki₃.2.1⟩ j
      have hre₄ : ∀ j, j ≠ i → ReadsEq s₃ s₄ j := by
        intro j hj
        refine ⟨?_, by rw [hs₄], by rw [hs₄]⟩
        rw [hv₄ j, if_neg hj]
      have hagl₄ : ∀ m, DescI (2*i + 1) m → ReadsEq s₃ s₄ m := by
        intro m hm'
        have h5 := hm'.le
        have h6 := hm'.1
        exact hre₄ m (by omega)
      have hagr₄ : ∀ m, DescI (2*i + 2) m → ReadsEq s₃ s₄ m := by
        intro m hm'
        have h5 := hm'.le
        have h6 := hm'.1
        exact hre₄ m (by omega)
      have hagl₃ : ∀ m, DescI (2*i + 1) m → ReadsEq s₂ s₄ m := by
        intro m hm'
        exact ((hre₃ m (fun hc => DescI.sib hio hm' hc)).trans (hagl₄ m hm'))
      have hIl₄ : INVp ops s₄ (2*i + 1) lo (cdiv (lo + hi) 2) :=
        INVp_mono_sub (hsh₃.comp hsh₄) hagl₃ hI₂
      have hIr₄ : INVp ops s₄ (2*i + 2) (cdiv (lo + hi) 2 + 1) hi :=
        INVp_mono_sub hsh₄ hagr₄ hI₃
      have hpf₄ : ∀ j, getT s₄.pending j = false := by
        intro j
        rw [hs₄]
        exact hpf₃ j
      have hlfl₄ : ∀ j, leafF ops s₄ (2*i + 1) lo (cdiv (lo + hi) 2) none j
          = leafF ops s₂ (2*i + 1) lo (cdiv (lo + hi) 2) none j :=
        fun j => (leafF_congr _ _ _ (by omega) hagl₃ none j).symm
      have hlfr₄ : ∀ j, leafF ops s₄ (2*i + 2) (cdiv (lo + hi) 2 + 1) hi none j
          = leafF ops s₃ (2*i + 2) (cdiv (lo + hi) 2 + 1) hi none j :=
        fun j => (leafF_congr _ _ _ (by omega) hagr₄ none j).symm
      have hvl3 : getT s₃.value (2*i + 1)
          = foldF ops (leafF ops s₂ (2*i + 1) lo (cdiv (lo + hi) 2) none) lo
              (cdiv (lo + hi) 2) := by
        rw [hfr₃ (2*i + 1) (fun hc => by have := hc.le; omega), hval₂]
      have hstale₄ : ∀ j, staleF ops s₄ i lo hi j
          = (if j ≤ cdiv (lo + hi) 2 then
              leafF ops s₂ (2*i + 1) lo (cdiv (lo + hi) 2) none j
            else leafF ops s₃ (2*i + 2) (cdiv (lo + hi) 2 + 1) hi none j) := by
        intro j
        by_cases hj : j ≤ cdiv (lo + hi) 2
        · rw [staleF_left h0 hlt hj, if_pos hj, hlfl₄ j]
        · rw [staleF_right h0 hlt hj, if_neg hj, hlfr₄ j]
      have hval₄ : getT s₄.value i = foldF ops (staleF ops s₄ i lo hi) lo hi := by
        rw [hv₄ i, if_pos rfl, hvl3, hval₃,
          @foldF_split T _ ops laws (staleF ops s₄ i lo hi) lo
            (cdiv (lo + hi) 2) hi (by omega) (by omega)]
        congr 1
        · exact (foldF_congr (by omega)
            (fun j a b => by rw [hstale₄ j, if_pos (by omega)])).symm
        · exact (foldF_congr (by omega)
            (fun j a b => by rw [hstale₄ j, if_neg (by omega)])).symm
      have hI₄ : INVp ops s₄ i lo hi := by
        rw [INVp_int h0 hlt]
        exact ⟨okIdx_of_shape hsh₄ hoki₃, hval₄, hIl₄, hIr₄⟩
      have hlf₄ : ∀ j, lo ≤ j → j ≤ hi → leafF ops s₄ i lo hi none j = getT arr j := by
        intro j a b
        rw [leafF_of_not_pending laws (hpf₄ i), hstale₄ j]
        by_cases hj : j ≤ cdiv (lo + hi) 2
        · rw [if_pos hj, hlf₂ j (by omega) (by omega)]
        · rw [if_neg hj, hlf₃ j (by omega) (by omega)]
      refine ⟨s₄, ?_, ?_, ?_, ?_, ?_, ?_, hI₄, hlf₄, ?_⟩
      · simp only [buildIt]
        rw [if_neg (by omega : ¬ lo = hi),
          show i*2 + 1 = 2*i + 1 by ring, show i*2 + 2 = 2*i + 2 by ring, hb1]
        simp only [bindE_ok]
        rw [hb2]
        simp only [bindE_ok]
        rw [getE_ok ⟨hokl₃.1, hokl₃.2.1⟩]
        simp only [bindE_ok]
        rw [getE_ok ⟨hokr₃.1, hokr₃.2.1⟩]
        simp only [bindE_ok]
        rw [setE_ok ⟨hoki₃.1, hoki₃.2.1⟩]
        simp only [bindE_ok]
        rw [hs₄]
        rfl
      · rw [hs₄]
        show s₃.len = s.len
        rw [hlen₃, hlen₂]
      · rw [hs₄]
        show s₃.delta = s.delta
        rw [hd₃, hd₂]
      · rw [hs₄]
        show s₃.pending = s.pending
        rw [hp₃, hp₂]
      · rw [hs₄]
        show (s₃.value.set _ _).length = s.value.length
        rw [List.length_set, hvl₃, hvl₂]
      · intro j hnd
        have hji : j ≠ i := fun hc => hnd (by rw [hc]; exact DescI.refl hio)
        have hnl : ¬ DescI (2*i + 1) j := fun hc => hnd (DescI.up_left hio hc)
        have hnr : ¬ DescI (2*i + 2) j := fun hc => hnd (DescI.up_right hio hc)
        rw [hv₄ j, if_neg hji, hfr₃ j hnr, hfr₂ j hnl]
      · rw [hval₄]
        exact foldF_congr h1 (fun j a b =>
          (leafF_of_not_pending laws (hpf₄ i) lo hi j).symm)

end SpecSide

section SpecSide

variable [Inhabited T] {ops : SegOps T}

/-- On well-formed spans, the fill `build` coincides with the range `build`
applied to a constant sequence. -/
theorem buildV_eq_buildIt (ops : SegOps T) (v : T) (m : Nat) :
    ∀ (fuel : Nat) (i lo hi : Int) (s : SegTree T), 0 ≤ lo → lo ≤ hi →
      hi < (m : Int) →
      buildV ops fuel i lo hi v s = buildIt ops fuel i lo hi (List.replicate m v) s := by
  intro fuel
  induction fuel with
  | zero =>
    intro i lo hi s h0 h1 hm
    rfl
  | succ fuel ih =>
    intro i lo hi s h0 h1 hm
    simp only [buildV, buildIt]
    by_cases he : lo = hi
    · rw [if_pos he, if_pos he,
        getE_ok ⟨h0, by rw [List.length_replicate]; omega⟩,
        getT_replicate m v lo h0 (by omega)]
      simp only [bindE_ok]
    · have hmd := mid_lt h0 (lt_of_le_of_ne h1 he)
      rw [if_neg he, if_neg he,
        ih (i*2 + 1) lo (cdiv (lo + hi) 2) s h0 (by omega) (by omega)]
      congr 1
      funext s'
      rw [ih (i*2 + 2) (cdiv (lo + hi) 2 + 1) hi s' (by omega) (by omega) hm]

/-- The abstraction invariant of a well-formed tree: positive size, all
three vectors hold exactly `4·len` entries, the internal aggregate
invariant holds from the root, and pushing all pending deltas down to the
leaves (`leafF`) recovers the logical array `A`. -/
def GoodTree (ops : SegOps T) (s : SegTree T) (A : Int → T) : Prop :=
  1 ≤ s.len ∧
  s.value.length = (4*s.len).toNat ∧ s.delta.length = (4*s.len).toNat ∧
  s.pending.length = (4*s.len).toNat ∧
  INVp ops s 0 0 (s.len - 1) ∧
  (∀ j, 0 ≤ j → j < s.len → leafF ops s 0 0 (s.len - 1) none j = A j)

theorem GoodTree.ext {s : SegTree T} {A B : Int → T}
    (h : GoodTree ops s A) (hAB : ∀ j, 0 ≤ j → j < s.len → A j = B j) :
    GoodTree ops s B := by
  obtain ⟨h1, h2, h3, h4, h5, h6⟩ := h
  exact ⟨h1, h2, h3, h4, h5, fun j a b => (h6 j a b).trans (hAB j a b)⟩

/-- The range constructor `segment_tree(lo, hi)` on a nonempty sequence
succeeds and represents exactly that sequence. -/
theorem mkSegIt_ok (laws : LawfulOps ops) (t0 : T) (arr : List T)
    (h : 1 ≤ arr.length) :
    ∃ s, mkSegIt ops t0 arr = .ok s ∧ s.len = (arr.length : Int) ∧
      GoodTree ops s (fun j => getT arr j) := by
  obtain ⟨s0, hs0⟩ : ∃ x : SegTree T, x =
      { len := (arr.length : Int)
        value := List.replicate (4*arr.length) t0
        delta := List.replicate (4*arr.length) t0
        pending := List.replicate (4*arr.length) false } := ⟨_, rfl⟩
  have hlen : ∀ l : List T, l = List.replicate (4*arr.length) t0 →
      l.length = (4*(arr.length : Int)).toNat := by
    intro l hl
    rw [hl, List.length_replicate]
    omega
  obtain ⟨s', hb, hl1, hl2, hl3, hl4, hfr, hI, hlf, hval⟩ :=
    buildIt_ok laws (arr.length + 1) 0 0 ((arr.length : Int) - 1) arr s0
      (arr.length : Int) 1 le_rfl le_rfl (by omega) (by omega) le_rfl (by omega)
      (by omega) (Or.inl rfl) (by omega)
      (by rw [hs0]; exact hlen _ rfl) (by rw [hs0]; exact hlen _ rfl)
      (by rw [hs0]; rw [List.length_replicate]; omega)
      (by intro j; rw [hs0]; exact getT_replicate_false _ j) (by omega)
  have hslen : s'.len = (arr.length : Int) := by
    rw [hl1, hs0]
  refine ⟨s', ?_, hslen, ?_⟩
  · unfold mkSegIt
    rw [← hs0]
    exact hb
  · refine ⟨by omega, ?_, ?_, ?_, ?_, ?_⟩
    · rw [hl4, hs0, hslen]
      exact hlen _ rfl
    · rw [hl2, hs0, hslen]
      exact hlen _ rfl
    · rw [hl3, hs0, hslen]
      rw [List.length_replicate]
      omega
    · rw [hslen]
      exact hI
    · intro j a b
      rw [hslen] at b ⊢
      exact hlf j a (by omega)

/-- The fill constructor `segment_tree(n, v)` with `n ≥ 1` succeeds and
represents the constant array. -/
theorem mkSegFill_ok (laws : LawfulOps ops) (t0 : T) (n : Int) (v : T)
    (h : 1 ≤ n) :
    ∃ s, mkSegFill ops t0 n v = .ok s ∧ s.len = n ∧
      GoodTree ops s (fun _ => v) := by
  have heq : mkSegFill ops t0 n v = mkSegIt ops t0 (List.replicate n.toNat v) := by
    unfold mkSegFill mkSegIt
    rw [buildV_eq_buildIt ops v n.toNat (n.toNat + 1) 0 0 (n - 1) _ le_rfl
      (by omega) (by omega)]
    rw [List.length_replicate,
      show (4 * n).toNat = 4 * n.toNat by omega, show n = (n.toNat : Int) by omega]
    simp [Int.toNat_natCast]
  obtain ⟨s, hmk, hlen, hgood⟩ := mkSegIt_ok laws t0 (List.replicate n.toNat v)
    (by rw [List.length_replicate]; omega)
  rw [List.length_replicate] at hlen
  refine ⟨s, by rw [heq]; exact hmk, by omega, ?_⟩
  refine GoodTree.ext hgood ?_
  intro j a b
  exact getT_replicate _ _ _ a (by omega)

end SpecSide

section SpecSide

variable [Inhabited T] {ops : SegOps T}

/-- Packaging: an operation that preserves shape, the root invariant, and
the root abstraction yields a `GoodTree` again. -/
theorem goodtree_step {s s' : SegTree T} {A B : Int → T}
    (hg : GoodTree ops s A) (hsh : SameShape s s')
    (hI' : INVp ops s' 0 0 (s.len - 1))
    (habs' : ∀ j, 0 ≤ j → j < s.len → leafF ops s' 0 0 (s.len - 1) none j = B j) :
    s'.len = s.len ∧ GoodTree ops s' B := by
  obtain ⟨hn, hL1, hL2, hL3, hI, habs⟩ := hg
  have hlen' : s'.len = s.len := hsh.1.symm
  refine ⟨hlen', by omega, ?_, ?_, ?_, ?_, ?_⟩
  · rw [hlen', ← hsh.2.1]
    exact hL1
  · rw [hlen', ← hsh.2.2.1]
    exact hL2
  · rw [hlen', ← hsh.2.2.2]
    exact hL3
  · rw [hlen']
    exact hI'
  · intro j a b
    rw [hlen'] at b ⊢
    exact habs' j a b

/-- The public `query(lo, hi)` on a well-formed tree with valid bounds
returns the `join_values`-fold of the logical array over `[lo, hi]` and
preserves the abstraction. -/
theorem querySeg_ok (laws : LawfulOps ops) {s : SegTree T} {A : Int → T}
    (hg : GoodTree ops s A) {lo hi : Int}
    (h0 : 0 ≤ lo) (h1 : lo ≤ hi) (h2 : hi < s.len) :
    ∃ s', querySeg ops s lo hi = .ok (foldF ops A lo hi, s') ∧ s'.len = s.len ∧
      GoodTree ops s' A := by
  obtain ⟨s', hq, hsh, hfr, hI', hpe', hpres⟩ := queryA_ok laws (s.len.toNat + 1)
    0 0 (s.len - 1) lo hi s hg.2.2.2.2.1 le_rfl h0 h1 (by omega)
    (by have := hg.1; omega)
  obtain ⟨hlen', hg'⟩ := goodtree_step hg hsh hI'
    (fun j a b => (hpres j).trans (hg.2.2.2.2.2 j a b))
  refine ⟨s', ?_, hlen', hg'⟩
  unfold querySeg
  rw [hq, foldF_congr h1
    (fun j a b => hg.2.2.2.2.2 j (by omega) (by omega))]

/-- `at(i) = query(i, i)` reads the logical array. -/
theorem atSeg_ok (laws : LawfulOps ops) {s : SegTree T} {A : Int → T}
    (hg : GoodTree ops s A) {i : Int} (h0 : 0 ≤ i) (h1 : i < s.len) :
    ∃ s', atSeg ops s i = .ok (A i, s') ∧ s'.len = s.len ∧ GoodTree ops s' A := by
  obtain ⟨s', hq, hlen', hg'⟩ := querySeg_ok laws hg h0 le_rfl h1
  refine ⟨s', ?_, hlen', hg'⟩
  unfold atSeg
  rw [hq, foldF_single]

/-- The logical effect of a range update: apply the delta pointwise (span 1)
on the target range. -/
def applyU (ops : SegOps T) (A : Int → T) (lo hi : Int) (d : T) : Int → T :=
  fun j => if lo ≤ j ∧ j ≤ hi then ops.join_value_with_delta (A j) d 1 else A j

/-- The public range `update(lo, hi, d)` on a well-formed tree with valid
bounds succeeds and transforms the logical array by `applyU`. -/
theorem updSegR_ok (laws : LawfulOps ops) {s : SegTree T} {A : Int → T}
    (hg : GoodTree ops s A) {lo hi : Int} (d : T)
    (h0 : 0 ≤ lo) (h1 : lo ≤ hi) (h2 : hi < s.len) :
    ∃ s', updSegR ops s lo hi d = .ok s' ∧ s'.len = s.len ∧
      GoodTree ops s' (applyU ops A lo hi d) := by
  obtain ⟨s', hq, hsh, hfr, hI', hpe', hfla, hval⟩ := updateA_ok laws
    (s.len.toNat + 1) 0 0 (s.len - 1) lo hi d s hg.2.2.2.2.1 le_rfl
    (by have := hg.1; omega) h1 (by have := hg.1; omega)
  have habs' : ∀ j, 0 ≤ j → j < s.len →
      leafF ops s' 0 0 (s.len - 1) none j = applyU ops A lo hi d j := by
    intro j a b
    rw [hfla j a (by omega)]
    unfold applyU
    by_cases hc : lo ≤ j ∧ j ≤ hi
    · rw [if_pos hc, if_pos hc, hg.2.2.2.2.2 j a b]
    · rw [if_neg hc, if_neg hc, hg.2.2.2.2.2 j a b]
  obtain ⟨hlen', hg'⟩ := goodtree_step hg hsh hI' habs'
  exact ⟨s', hq, hlen', hg'⟩

/-- The public point update is definitionally the range update on `[i, i]`. -/
theorem updSegP_eq (ops : SegOps T) (s : SegTree T) (i : Int) (d : T) :
    updSegP ops s i d = updSegR ops s i i d := rfl

theorem updSegP_ok (laws : LawfulOps ops) {s : SegTree T} {A : Int → T}
    (hg : GoodTree ops s A) {i : Int} (d : T)
    (h0 : 0 ≤ i) (h1 : i < s.len) :
    ∃ s', updSegP ops s i d = .ok s' ∧ s'.len = s.len ∧
      GoodTree ops s' (applyU ops A i i d) := by
  rw [updSegP_eq]
  exact updSegR_ok laws hg d h0 le_rfl h1

/-- States reachable from a constructor by valid public operations. -/
inductive Reach (ops : SegOps T) (t0 : T) : SegTree T → Prop where
  | fill {n : Int} {v : T} {s : SegTree T} :
      1 ≤ n → mkSegFill ops t0 n v = .ok s → Reach ops t0 s
  | ofList {arr : List T} {s : SegTree T} :
      1 ≤ arr.length → mkSegIt ops t0 arr = .ok s → Reach ops t0 s
  | queryStep {s : SegTree T} {lo hi : Int} {v : T} {s' : SegTree T} :
      Reach ops t0 s → 0 ≤ lo → lo ≤ hi → hi < s.len →
      querySeg ops s lo hi = .ok (v, s') → Reach ops t0 s'
  | updateStep {s : SegTree T} {lo hi : Int} {d : T} {s' : SegTree T} :
      Reach ops t0 s → 0 ≤ lo → lo ≤ hi → hi < s.len →
      updSegR ops s lo hi d = .ok s' → Reach ops t0 s'
  | pointStep {s : SegTree T} {i : Int} {d : T} {s' : SegTree T} :
      Reach ops t0 s → 0 ≤ i → i < s.len →
      updSegP ops s i d = .ok s' → Reach ops t0 s'

/-- Every reachable state is a well-formed tree representing some logical
array. -/
theorem reach_good (laws : LawfulOps ops) {t0 : T} {s : SegTree T}
    (h : Reach ops t0 s) : ∃ A, GoodTree ops s A := by
  induction h with
  | @fill n v s hn hmk =>
    obtain ⟨s'', hmk', hlen, hg⟩ := mkSegFill_ok laws t0 n v hn
    have he : s'' = s := by
      have h2 := hmk'.symm.trans hmk
      injection h2
    exact ⟨_, he ▸ hg⟩
  | @ofList arr s hn hmk =>
    obtain ⟨s'', hmk', hlen, hg⟩ := mkSegIt_ok laws t0 arr hn
    have he : s'' = s := by
      have h2 := hmk'.symm.trans hmk
      injection h2
    exact ⟨_, he ▸ hg⟩
  | @queryStep s lo hi v s' hr h0 h1 h2 hq ih =>
    obtain ⟨A, hg⟩ := ih
    obtain ⟨s'', hq', hlen, hg'⟩ := querySeg_ok laws hg h0 h1 h2
    have he : s'' = s' := by
      have h3 := hq'.symm.trans hq
      injection h3 with h4
      exact congrArg Prod.snd h4
    exact ⟨A, he ▸ hg'⟩
  | @updateStep s lo hi d s' hr h0 h1 h2 hq ih =>
    obtain ⟨A, hg⟩ := ih
    obtain ⟨s'', hq', hlen, hg'⟩ := updSegR_ok laws hg d h0 h1 h2
    have he : s'' = s' := by
      have h3 := hq'.symm.trans hq
      injection h3
    exact ⟨_, he ▸ hg'⟩
  | @pointStep s i d s' hr h0 h1 hq ih =>
    obtain ⟨A, hg⟩ := ih
    obtain ⟨s'', hq', hlen, hg'⟩ := updSegP_ok laws hg d h0 h1
    have he : s'' = s' := by
      have h3 := hq'.symm.trans hq
      injection h3
    exact ⟨_, he ▸ hg'⟩

end SpecSide

section SpecSide

variable [Inhabited T] {ops : SegOps T}

/-- Run a list of range-update calls `(lo, hi, d)` in order. -/
def runUpd (ops : SegOps T) : SegTree T → List (Int × Int × T) →
    Except SegError (SegTree T)
  | s, [] => .ok s
  | s, u :: us => do
      let s' ← updSegR ops s u.1 u.2.1 u.2.2
      runUpd ops s' us

/-- The logical effect of a list of range updates, in call order. -/
def applyUs (ops : SegOps T) : (Int → T) → List (Int × Int × T) → (Int → T)
  | A, [] => A
  | A, u :: us => applyUs ops (applyU ops A u.1 u.2.1 u.2.2) us

/-- All updates in the list are in-range for size `n`. -/
def ValidUs (n : Int) (us : List (Int × Int × T)) : Prop :=
  ∀ u ∈ us, 0 ≤ u.1 ∧ u.1 ≤ u.2.1 ∧ u.2.1 < n

instance (n : Int) (us : List (Int × Int × T)) : Decidable (ValidUs n us) := by
  unfold ValidUs
  infer_instance

theorem runUpd_ok (laws : LawfulOps ops) :
    ∀ (us : List (Int × Int × T)) (s : SegTree T) (A : Int → T),
      GoodTree ops s A → ValidUs s.len us →
      ∃ s', runUpd ops s us = .ok s' ∧ s'.len = s.len ∧
        GoodTree ops s' (applyUs ops A us) := by
  intro us
  induction us with
  | nil =>
    intro s A hg hv
    exact ⟨s, rfl, rfl, hg⟩
  | cons u us ih =>
    intro s A hg hv
    obtain ⟨hu1, hu2, hu3⟩ := hv u (by simp)
    obtain ⟨s₁, hU, hlen₁, hg₁⟩ := updSegR_ok laws hg u.2.2 hu1 hu2 hu3
    obtain ⟨s', hR, hlen', hg'⟩ := ih s₁ _ hg₁
      (fun w hw => by rw [hlen₁]; exact hv w (by simp [hw]))
    refine ⟨s', ?_, by omega, hg'⟩
    show (updSegR ops s u.1 u.2.1 u.2.2 >>= fun s' => runUpd ops s' us) = .ok s'
    rw [hU]
    simp only [bindE_ok]
    exact hR

/-- Run `k` point updates `update(i, d), update(i+1, d), ...`. -/
def iterP (ops : SegOps T) (d : T) : Nat → Int → SegTree T →
    Except SegError (SegTree T)
  | 0, _, s => .ok s
  | k+1, i, s => do
      let s' ← updSegP ops s i d
      iterP ops d k (i + 1) s'

theorem applyU_merge (ops : SegOps T) (A : Int → T) (i m : Int) (d : T)
    (h : i ≤ m) (j : Int) :
    applyU ops (applyU ops A i i d) (i + 1) m d j = applyU ops A i m d j := by
  unfold applyU
  by_cases h1 : i + 1 ≤ j ∧ j ≤ m
  · rw [if_pos h1, if_neg (by omega), if_pos (by omega)]
  · rw [if_neg h1]
    by_cases h2 : j = i
    · subst h2
      rw [if_pos ⟨le_rfl, le_rfl⟩, if_pos (by omega)]
    · rw [if_neg (by omega), if_neg (by omega)]

theorem iterP_ok (laws : LawfulOps ops) (d : T) :
    ∀ (k : Nat) (i : Int) (s : SegTree T) (A : Int → T),
      GoodTree ops s A → 0 ≤ i → i + k - 1 < s.len →
      ∃ s', iterP ops d k i s = .ok s' ∧ s'.len = s.len ∧
        GoodTree ops s' (applyU ops A i (i + k - 1) d) := by
  intro k
  induction k with
  | zero =>
    intro i s A hg h0 h1
    refine ⟨s, rfl, rfl, GoodTree.ext hg ?_⟩
    intro j a b
    unfold applyU
    rw [if_neg (by omega)]
  | succ k ih =>
    intro i s A hg h0 h1
    obtain ⟨s₁, hU, hlen₁, hg₁⟩ := updSegP_ok laws hg d h0 (by push_cast at h1 ⊢; omega)
    obtain ⟨s', hR, hlen', hg'⟩ := ih (i + 1) s₁ _ hg₁ (by omega)
      (by push_cast at h1 ⊢; omega)
    refine ⟨s', ?_, by omega, ?_⟩
    · show (updSegP ops s i d >>= fun s' => iterP ops d k (i + 1) s') = .ok s'
      rw [hU]
      simp only [bindE_ok]
      exact hR
    · refine GoodTree.ext hg' ?_
      intro j a b
      rw [show i + 1 + (k : Int) - 1 = i + (k : Int) from by ring,
        applyU_merge ops A i (i + (k : Int)) d (by omega) j]
      congr 1
      push_cast
      ring

end SpecSide

/-! ## A concrete example tree (the array of the C++ usage example) -/

/-- The sample array from the usage example in the source file. -/
def exArr : List Int := [6, -2, 1, 8, 10]

/-- The tree built from `exArr` by the range constructor (extracted from the
successful construction). -/
def exTree : SegTree Int :=
  ((mkSegIt minOps 0 exArr).toOption).getD ⟨0, [], [], []⟩

theorem exTree_mk : mkSegIt minOps 0 exArr = .ok exTree := rfl

theorem exTree_len : exTree.len = 5 := rfl

theorem exTree_reach : Reach minOps 0 exTree :=
  Reach.ofList (by decide) exTree_mk

theorem exTree_good : GoodTree minOps exTree (fun j => getT exArr j) := by
  obtain ⟨s, hmk, hlen, hg⟩ := mkSegIt_ok lawful_minOps 0 exArr (by decide)
  have he : s = exTree := by
    have h2 := hmk.symm.trans exTree_mk
    injection h2
  exact he ▸ hg

/-! ## The claims -/

/-- C1: For the default min-aggregate/set-delta instantiation (`minOps`) and
every sequence of valid in-range update calls after construction (point
updates are literally range updates on `[i, i]`, see `updSegP_eq`), `at(i)`
returns the current logical value at index `i`: the initial value at `i`
with every update whose range contains `i` applied in call order via
`join_value_with_delta` — never a stale cached value. -/
theorem claim_C1 (S : List Int) (us : List (Int × Int × Int)) (i : Int)
    (hv : ValidUs (S.length : Int) us) (h0 : 0 ≤ i) (h1 : i < (S.length : Int)) :
    ∃ t t' t'', mkSegIt minOps 0 S = .ok t ∧ runUpd minOps t us = .ok t' ∧
      atSeg minOps t' i = .ok ((applyUs minOps (fun j => getT S j) us) i, t'') := by
  obtain ⟨t, hmk, hlen, hg⟩ := mkSegIt_ok lawful_minOps 0 S (by omega)
  obtain ⟨t', hrun, hlen', hg'⟩ := runUpd_ok lawful_minOps us t _ hg
    (by rw [hlen]; exact hv)
  obtain ⟨t'', hat, hlen'', hg''⟩ := atSeg_ok lawful_minOps hg' h0 (by omega)
  exact ⟨t, t', t'', hmk, hrun, hat⟩

/-- Witness for C1: array `[6,-2,1,8,10]`, one range update `set [0,3] to 7`,
then `at(1)`. -/
theorem claim_C1_witness :
    ValidUs ((([6, -2, 1, 8, 10] : List Int).length : Int))
      [((0 : Int), (3 : Int), (7 : Int))] ∧
    (∃ t t' t'', mkSegIt minOps 0 [6, -2, 1, 8, 10] = .ok t ∧
      runUpd minOps t [(0, 3, 7)] = .ok t' ∧
      atSeg minOps t' 1
        = .ok (applyUs minOps (fun j => getT [6, -2, 1, 8, 10] j) [(0, 3, 7)] 1,
            t'')) :=
  ⟨by decide, claim_C1 [6, -2, 1, 8, 10] [(0, 3, 7)] 1 (by decide) (by decide)
    (by decide)⟩

/-- C2 (counterexample): the implementation performs no bounds validation at
all, so the claim "every out-of-range call fails with an OutOfRange error
raised before any mutation" is false.  On the 5-element example tree,
`update(5, 0, 7)` (i.e. `update(n, 0, d)`) does not fail — its disjointness
test makes it return normally — and `query(-1, 0)` runs the recursive
algorithm into undefined behaviour (`crash`: an out-of-bounds vector access
/ runaway recursion), not an `outOfRange` error. -/
theorem claim_C2_counterexample :
    mkSegIt minOps 0 exArr = .ok exTree ∧
    updSegR minOps exTree 5 0 7 = .ok exTree ∧
    querySeg minOps exTree (-1) 0 = .error SegError.crash ∧
    SegError.crash ≠ SegError.outOfRange :=
  ⟨rfl, rfl, rfl, by decide⟩

/-- C2 (amended): no validation exists.  On the 5-element example tree the
out-of-range calls behave as follows: `query(-1, 0)`, `query(0, n)` and
`at(n)` crash with undefined behaviour (out-of-bounds accesses / unbounded
recursion), and `update(n, 0, d)` silently succeeds as a no-op (the state
is unchanged only because the root happened to have no pending delta);
none of them raises OutOfRange. -/
theorem claim_C2_amended :
    mkSegIt minOps 0 exArr = .ok exTree ∧
    sizeSeg exTree = 5 ∧
    querySeg minOps exTree (-1) 0 = .error SegError.crash ∧
    querySeg minOps exTree 0 5 = .error SegError.crash ∧
    atSeg minOps exTree 5 = .error SegError.crash ∧
    updSegR minOps exTree 5 0 7 = .ok exTree :=
  ⟨rfl, rfl, rfl, rfl, rfl, rfl⟩

/-- C3 (counterexample): construction with `n = 0` does not terminate with
an empty structure; `build(0, 0, -1, v)` recurses on malformed spans and
writes out of bounds on the empty vectors — undefined behaviour, modelled
as `crash`. -/
theorem claim_C3_counterexample :
    mkSegFill minOps 0 0 5 = .error SegError.crash := rfl

/-- C3 (amended): for every `n ≥ 1` and fill value `v` (and any lawful
operator instantiation), `construct(n, v)` terminates and yields a
structure of size `n` in which every index `0 ≤ i < n` holds `v`. -/
theorem claim_C3_amended {T : Type} [Inhabited T] (ops : SegOps T)
    (laws : LawfulOps ops) (t0 : T) (n : Int) (v : T) (h : 1 ≤ n) :
    ∃ s, mkSegFill ops t0 n v = .ok s ∧ sizeSeg s = n ∧
      ∀ i, 0 ≤ i → i < n → ∃ s', atSeg ops s i = .ok (v, s') := by
  obtain ⟨s, hmk, hlen, hg⟩ := mkSegFill_ok laws t0 n v h
  refine ⟨s, hmk, hlen, ?_⟩
  intro i a b
  obtain ⟨s', hat, hl, hg'⟩ := atSeg_ok laws hg a (by omega)
  exact ⟨s', hat⟩

/-- Witness for the amended C3: `construct(3, 7)` over the default min/set
instantiation. -/
theorem claim_C3_witness :
    (1 : Int) ≤ 3 ∧
    (∃ s, mkSegFill minOps 0 3 7 = .ok s ∧ sizeSeg s = 3 ∧
      ∀ i, 0 ≤ i → i < 3 → ∃ s', atSeg minOps s i = .ok (7, s')) :=
  ⟨by decide, claim_C3_amended minOps lawful_minOps 0 3 7 (by decide)⟩

/-- C4: for every finite input sequence `S` and every lawful operator
instantiation, immediately after constructing the structure from `S`,
`at(i) = S[i]` for every index `0 ≤ i < |S|`. -/
theorem claim_C4 {T : Type} [Inhabited T] (ops : SegOps T)
    (laws : LawfulOps ops) (t0 : T) (S : List T) (i : Int)
    (h0 : 0 ≤ i) (h1 : i < (S.length : Int)) :
    ∃ t t', mkSegIt ops t0 S = .ok t ∧ atSeg ops t i = .ok (getT S i, t') := by
  obtain ⟨t, hmk, hlen, hg⟩ := mkSegIt_ok laws t0 S (by omega)
  obtain ⟨t', hat, hlen', hg'⟩ := atSeg_ok laws hg h0 (by omega)
  exact ⟨t, t', hmk, hat⟩

/-- Witness for C4: the example array at index 2. -/
theorem claim_C4_witness :
    (0 : Int) ≤ 2 ∧ (2 : Int) < (([6, -2, 1, 8, 10] : List Int).length : Int) ∧
    (∃ t t', mkSegIt minOps 0 [6, -2, 1, 8, 10] = .ok t ∧
      atSeg minOps t 2 = .ok (getT [6, -2, 1, 8, 10] 2, t')) :=
  ⟨by decide, by decide,
    claim_C4 minOps lawful_minOps 0 [6, -2, 1, 8, 10] 2 (by decide) (by decide)⟩

/-- C5: on every reachable state and for every split point
`0 ≤ lo ≤ mid < hi < n`, `query(lo, hi)` equals `join_values` of
`query(lo, mid)` and `query(mid+1, hi)`, the two sub-queries executed in
sequence on the same (mutable) structure. -/
theorem claim_C5 {T : Type} [Inhabited T] (ops : SegOps T) (t0 : T)
    (laws : LawfulOps ops) {s : SegTree T} (hr : Reach ops t0 s)
    (lo mid hi : Int) (h0 : 0 ≤ lo) (h1 : lo ≤ mid) (h2 : mid < hi)
    (h3 : hi < s.len) :
    ∃ a s₁ b s₂ s₃,
      querySeg ops s lo mid = .ok (a, s₁) ∧
      querySeg ops s₁ (mid + 1) hi = .ok (b, s₂) ∧
      querySeg ops s lo hi = .ok (ops.join_values a b, s₃) := by
  obtain ⟨A, hg⟩ := reach_good laws hr
  obtain ⟨s₁, hq1, hlen1, hg1⟩ := querySeg_ok laws hg h0 h1 (by omega)
  obtain ⟨s₂, hq2, hlen2, hg2⟩ := querySeg_ok laws hg1
    (show (0 : Int) ≤ mid + 1 by omega) (show mid + 1 ≤ hi by omega)
    (show hi < s₁.len by omega)
  obtain ⟨s₃, hq3, hlen3, hg3⟩ := querySeg_ok laws hg h0 (by omega) h3
  refine ⟨_, s₁, _, s₂, s₃, hq1, hq2, ?_⟩
  rw [hq3, foldF_split laws h1 h2]

/-- Witness for C5: the example tree, split of `[0, 3]` at `mid = 1`. -/
theorem claim_C5_witness :
    ∃ a s₁ b s₂ s₃,
      querySeg minOps exTree 0 1 = .ok (a, s₁) ∧
      querySeg minOps s₁ 2 3 = .ok (b, s₂) ∧
      querySeg minOps exTree 0 3 = .ok (minOps.join_values a b, s₃) :=
  claim_C5 minOps 0 lawful_minOps exTree_reach 0 1 3 (by decide) (by decide)
    (by decide) (by decide)

/-- C6: for lawful (distribution-contract-satisfying) delta operators and
every valid `0 ≤ lo ≤ hi < n` on a reachable state, `update(lo, hi, d)`
gives every index `i ∈ [lo, hi]` the same `at(i)` result as performing the
point updates `update(lo, d), update(lo+1, d), ..., update(hi, d)`
individually. -/
theorem claim_C6 {T : Type} [Inhabited T] (ops : SegOps T) (t0 : T)
    (laws : LawfulOps ops) {s : SegTree T} (hr : Reach ops t0 s)
    (lo hi : Int) (d : T) (h0 : 0 ≤ lo) (h1 : lo ≤ hi) (h2 : hi < s.len) :
    ∃ sR sP, updSegR ops s lo hi d = .ok sR ∧
      iterP ops d (hi - lo + 1).toNat lo s = .ok sP ∧
      ∀ i, lo ≤ i → i ≤ hi → ∃ v sR' sP',
        atSeg ops sR i = .ok (v, sR') ∧ atSeg ops sP i = .ok (v, sP') := by
  obtain ⟨A, hg⟩ := reach_good laws hr
  obtain ⟨sR, hU, hlenR, hgR⟩ := updSegR_ok laws hg d h0 h1 h2
  obtain ⟨sP, hP, hlenP, hgP⟩ := iterP_ok laws d (hi - lo + 1).toNat lo s A hg h0
    (by omega)
  have hgP' : GoodTree ops sP (applyU ops A lo hi d) := by
    refine GoodTree.ext hgP ?_
    intro j a b
    rw [show lo + ((hi - lo + 1).toNat : Int) - 1 = hi from by omega]
  refine ⟨sR, sP, hU, hP, ?_⟩
  intro i hlo hhi
  obtain ⟨sR', hatR, hlR, hgR'⟩ := atSeg_ok laws hgR
    (show (0 : Int) ≤ i by omega) (show i < sR.len by omega)
  obtain ⟨sP', hatP, hlP, hgP''⟩ := atSeg_ok laws hgP'
    (show (0 : Int) ≤ i by omega) (show i < sP.len by omega)
  exact ⟨_, sR', sP', hatR, hatP⟩

/-- Witness for C6: the example tree, `update(1, 3, 4)` versus the three
point updates. -/
theorem claim_C6_witness :
    ∃ sR sP, updSegR minOps exTree 1 3 4 = .ok sR ∧
      iterP minOps 4 ((3 : Int) - 1 + 1).toNat 1 exTree = .ok sP ∧
      ∀ i, (1 : Int) ≤ i → i ≤ 3 → ∃ v sR' sP',
        atSeg minOps sR i = .ok (v, sR') ∧ atSeg minOps sP i = .ok (v, sP') :=
  claim_C6 minOps 0 lawful_minOps exTree_reach 1 3 4 (by decide) (by decide)
    (by decide)

/-- C7: with the sum/increment instantiation (`sumOps`: addition as
`join_values`, `join_value_with_delta(v,d,len) = v + d·len`, addition as
`join_deltas`), starting from `[1,1,1,1]`, after `update(0, 3, +2)` the
call `query(0, 3)` returns `12` and `at(1)` returns `3`. -/
theorem claim_C7 :
    ∃ t t' s₁ s₂, mkSegIt sumOps 0 [1, 1, 1, 1] = .ok t ∧
      updSegR sumOps t 0 3 2 = .ok t' ∧
      querySeg sumOps t' 0 3 = .ok (12, s₁) ∧
      atSeg sumOps t' 1 = .ok (3, s₂) :=
  ⟨_, _, _, _, rfl, rfl, rfl, rfl⟩

/-- C8: every public operation preserves the lazy-tree abstraction
invariant `GoodTree`: in every state satisfying it, fully pushing all
pending deltas down to the leaves (the `leafF` abstraction, which applies
the resolve rule on paper) yields exactly the logical array, and every
internal node's stored aggregate is coherent (`INVp`: it equals the
`join_values`-fold — hence the combine of its two children's aggregates —
of its subtree's leaf values). -/
theorem claim_C8 {T : Type} [Inhabited T] (ops : SegOps T)
    (laws : LawfulOps ops) {s : SegTree T} {A : Int → T}
    (hg : GoodTree ops s A) :
    (∀ lo hi, 0 ≤ lo → lo ≤ hi → hi < s.len →
      ∃ v s', querySeg ops s lo hi = .ok (v, s') ∧ GoodTree ops s' A) ∧
    (∀ i, 0 ≤ i → i < s.len →
      ∃ v s', atSeg ops s i = .ok (v, s') ∧ GoodTree ops s' A) ∧
    (∀ lo hi d, 0 ≤ lo → lo ≤ hi → hi < s.len →
      ∃ s', updSegR ops s lo hi d = .ok s' ∧
        GoodTree ops s' (applyU ops A lo hi d)) ∧
    (∀ i d, 0 ≤ i → i < s.len →
      ∃ s', updSegP ops s i d = .ok s' ∧ GoodTree ops s' (applyU ops A i i d)) := by
  refine ⟨?_, ?_, ?_, ?_⟩
  · intro lo hi h0 h1 h2
    obtain ⟨s', hq, hl, hg'⟩ := querySeg_ok laws hg h0 h1 h2
    exact ⟨_, s', hq, hg'⟩
  · intro i h0 h1
    obtain ⟨s', hq, hl, hg'⟩ := atSeg_ok laws hg h0 h1
    exact ⟨_, s', hq, hg'⟩
  · intro lo hi d h0 h1 h2
    obtain ⟨s', hq, hl, hg'⟩ := updSegR_ok laws hg d h0 h1 h2
    exact ⟨s', hq, hg'⟩
  · intro i d h0 h1
    obtain ⟨s', hq, hl, hg'⟩ := updSegP_ok laws hg d h0 h1
    exact ⟨s', hq, hg'⟩

/-- Witness for C8: a range update on the example tree preserves the
invariant. -/
theorem claim_C8_witness :
    ∃ s', updSegR minOps exTree 1 3 7 = .ok s' ∧
      GoodTree minOps s' (applyU minOps (fun j => getT exArr j) 1 3 7) :=
  (claim_C8 minOps lawful_minOps exTree_good).2.2.1 1 3 7 (by decide) (by decide)
    (by decide)

/-- C9: a valid `query(lo, hi)` on a reachable state leaves the logical
array unchanged: `at(j)` returns the same value immediately before and
immediately after the query (even though the query mutates internal
pending-delta state). -/
theorem claim_C9 {T : Type} [Inhabited T] (ops : SegOps T) (t0 : T)
    (laws : LawfulOps ops) {s : SegTree T} (hr : Reach ops t0 s)
    (lo hi j : Int) (h0 : 0 ≤ lo) (h1 : lo ≤ hi) (h2 : hi < s.len)
    (h3 : 0 ≤ j) (h4 : j < s.len) :
    ∃ v s' a t₁ t₂,
      querySeg ops s lo hi = .ok (v, s') ∧
      atSeg ops s j = .ok (a, t₁) ∧
      atSeg ops s' j = .ok (a, t₂) := by
  obtain ⟨A, hg⟩ := reach_good laws hr
  obtain ⟨s', hq, hlen', hg'⟩ := querySeg_ok laws hg h0 h1 h2
  obtain ⟨t₁, hat1, hl1, hg1⟩ := atSeg_ok laws hg h3 h4
  obtain ⟨t₂, hat2, hl2, hg2⟩ := atSeg_ok laws hg' h3 (by omega)
  exact ⟨_, s', _, t₁, t₂, hq, hat1, hat2⟩

/-- Witness for C9: the example tree, `query(0, 3)` around `at(1)`. -/
theorem claim_C9_witness :
    ∃ v s' a t₁ t₂,
      querySeg minOps exTree 0 3 = .ok (v, s') ∧
      atSeg minOps exTree 1 = .ok (a, t₁) ∧
      atSeg minOps s' 1 = .ok (a, t₂) :=
  claim_C9 minOps 0 lawful_minOps exTree_reach 0 3 1 (by decide) (by decide)
    (by decide) (by decide) (by decide)

/-- C10: for every construction with `n ≥ 1` and every subsequent operation
with in-range arguments, every access to the `value`, `delta` and `pending`
vectors stays inside the `4n`-element allocation made at construction.  In
this model every subscript is bounds-checked against the vector lengths
(which construction fixes at `(4n)`), and a violation returns
`SegError.crash`; therefore the `.ok` results below prove that no access
ever leaves `[0, 4n)`. -/
theorem claim_C10 {T : Type} [Inhabited T] (ops : SegOps T)
    (laws : LawfulOps ops) (t0 : T) :
    (∀ n v, 1 ≤ n → ∃ s, mkSegFill ops t0 n v = .ok s ∧ sizeSeg s = n ∧
        s.value.length = (4*n).toNat ∧ s.delta.length = (4*n).toNat ∧
        s.pending.length = (4*n).toNat) ∧
    (∀ s : SegTree T, Reach ops t0 s →
      (∀ lo hi, 0 ≤ lo → lo ≤ hi → hi < s.len →
        ∃ r, querySeg ops s lo hi = .ok r) ∧
      (∀ i, 0 ≤ i → i < s.len → ∃ r, atSeg ops s i = .ok r) ∧
      (∀ lo hi d, 0 ≤ lo → lo ≤ hi → hi < s.len →
        ∃ s', updSegR ops s lo hi d = .ok s') ∧
      (∀ i d, 0 ≤ i → i < s.len → ∃ s', updSegP ops s i d = .ok s')) := by
  refine ⟨?_, ?_⟩
  · intro n v hn
    obtain ⟨s, hmk, hlen, hg⟩ := mkSegFill_ok laws t0 n v hn
    refine ⟨s, hmk, hlen, ?_, ?_, ?_⟩
    · rw [hg.2.1, hlen]
    · rw [hg.2.2.1, hlen]
    · rw [hg.2.2.2.1, hlen]
  · intro s hr
    obtain ⟨A, hg⟩ := reach_good laws hr
    refine ⟨?_, ?_, ?_, ?_⟩
    · intro lo hi h0 h1 h2
      obtain ⟨s', hq, -, -⟩ := querySeg_ok laws hg h0 h1 h2
      exact ⟨_, hq⟩
    · intro i h0 h1
      obtain ⟨s', hq, -, -⟩ := atSeg_ok laws hg h0 h1
      exact ⟨_, hq⟩
    · intro lo hi d h0 h1 h2
      obtain ⟨s', hq, -, -⟩ := updSegR_ok laws hg d h0 h1 h2
      exact ⟨_, hq⟩
    · intro i d h0 h1
      obtain ⟨s', hq, -, -⟩ := updSegP_ok laws hg d h0 h1
      exact ⟨_, hq⟩

/-- Witness for C10: construction of size 3 and a query on the example
tree. -/
theorem claim_C10_witness :
    (∃ s, mkSegFill minOps 0 3 9 = .ok s ∧ sizeSeg s = 3 ∧
      s.value.length = ((4 : Int)*3).toNat ∧ s.delta.length = ((4 : Int)*3).toNat ∧
      s.pending.length = ((4 : Int)*3).toNat) ∧
    (∃ r, querySeg minOps exTree 0 4 = .ok r) :=
  ⟨(claim_C10 minOps lawful_minOps 0).1 3 9 (by decide),
    ((claim_C10 minOps lawful_minOps 0).2 exTree exTree_reach).1 0 4 (by decide)
      (by decide) (by decide)⟩

end SegVerify
